import Mathlib

/-!
Verification development for the `dimensio` compression-pipeline library.

The Python sources are shallowly embedded: pure functions become Lean
functions over `ℚ` (modelling IEEE floats by exact rational arithmetic),
`Int`/`Nat`, `List` and association lists (modelling Python dicts in
insertion/overwrite order); stateful code is embedded as explicit state
passing.  External collaborators (numpy's pseudo-inverse, the SHAP/
correlation importance oracles, ConfigSpace internals) are modelled as
abstract inputs, as the specification treats them as black boxes.
-/

namespace Dimensio

/-! ## Rounding primitives shared by several components

`pyRound` models Python's built-in `round` / `numpy.round` (round half to
even).  `pyInt` models Python's `int(...)` applied to a float (truncation
toward zero).  `ratSqrt` models the floating-point square root used by
`numpy.std` by a nonnegative rational square-root approximation
(`sqrt (n/d) = sqrt (n*d) / d`, integer square root on the numerator). -/

/-- Round half to even, as Python's `round` and `numpy.round` do. -/
def pyRound (x : ℚ) : ℤ :=
  let f : ℤ := ⌊x⌋
  let r : ℚ := x - f
  if r < 1/2 then f
  else if 1/2 < r then f + 1
  else if f % 2 = 0 then f else f + 1

/-- Truncation toward zero, as Python's `int(...)` on a float. -/
def pyInt (x : ℚ) : ℤ :=
  if 0 ≤ x then ⌊x⌋ else ⌈x⌉

/-- Nonnegative rational square-root approximation, modelling the
floating-point `sqrt` inside `numpy.std`. -/
def ratSqrt (q : ℚ) : ℚ :=
  if q ≤ 0 then 0
  else (Nat.sqrt (q.num.toNat * q.den) : ℚ) / (q.den : ℚ)

theorem pyRound_sub_le (x : ℚ) : |(pyRound x : ℚ) - x| ≤ 1/2 := by
  unfold pyRound
  have hf : (⌊x⌋ : ℚ) ≤ x := Int.floor_le x
  have hf' : x < (⌊x⌋ : ℚ) + 1 := Int.lt_floor_add_one x
  by_cases h1 : x - (⌊x⌋ : ℚ) < 1/2
  · simp only [h1, if_true]
    rw [abs_sub_comm, abs_of_nonneg (by linarith)]
    linarith
  · by_cases h2 : (1:ℚ)/2 < x - (⌊x⌋ : ℚ)
    · simp only [h1, h2, if_false, if_true]
      push_cast
      rw [abs_of_nonneg (by linarith)]
      linarith
    · have heq : x - (⌊x⌋ : ℚ) = 1/2 := le_antisymm (not_lt.mp h2) (not_lt.mp h1)
      by_cases h3 : ⌊x⌋ % 2 = 0
      · simp only [h1, h2, h3, if_false, if_true]
        rw [abs_sub_comm, abs_of_nonneg (by linarith)]
        linarith
      · simp only [h1, h2, h3, if_false]
        push_cast
        rw [abs_of_nonneg (by linarith)]
        linarith

theorem pyInt_sub_lt (x : ℚ) : |(pyInt x : ℚ) - x| < 1 := by
  unfold pyInt
  have hf : (⌊x⌋ : ℚ) ≤ x := Int.floor_le x
  have hf' : x < (⌊x⌋ : ℚ) + 1 := Int.lt_floor_add_one x
  have hc : x ≤ (⌈x⌉ : ℚ) := Int.le_ceil x
  have hc' : (⌈x⌉ : ℚ) < x + 1 := Int.ceil_lt_add_one x
  by_cases h : 0 ≤ x
  · simp only [h, if_true]
    rw [abs_sub_comm, abs_of_nonneg (by linarith)]
    linarith
  · simp only [h, if_false]
    rw [abs_of_nonneg (by linarith)]
    linarith

theorem pyInt_mono {x y : ℚ} (h : x ≤ y) : pyInt x ≤ pyInt y := by
  unfold pyInt
  by_cases hx : 0 ≤ x
  · have hy : 0 ≤ y := le_trans hx h
    simp only [hx, hy, if_true]
    exact Int.floor_le_floor h
  · by_cases hy : 0 ≤ y
    · simp only [hx, hy, if_true, if_false]
      calc ⌈x⌉ ≤ 0 := Int.ceil_le.mpr (by exact_mod_cast le_of_not_le hx)
        _ ≤ ⌊y⌋ := Int.floor_nonneg.mpr hy
    · simp only [hx, hy, if_false]
      exact Int.ceil_le_ceil h

theorem ratSqrt_nonneg (q : ℚ) : 0 ≤ ratSqrt q := by
  unfold ratSqrt
  by_cases h : q ≤ 0
  · simp [h]
  · simp only [h, if_false]
    positivity

/-! ## `core/progress.py` — `OptimizerProgress` (claim C10) -/

/-- State of `OptimizerProgress` (`src/core/progress.py`). -/
structure OptimizerProgress where
  iteration : ℕ
  best_value_history : List ℚ
  improvement_count : ℕ
  stagnation_count : ℕ
  last_best_value : Option ℚ
  minimize : Bool
deriving Repr, DecidableEq

/-- The freshly constructed `OptimizerProgress()`. -/
def OptimizerProgress.init : OptimizerProgress :=
  { iteration := 0
    best_value_history := []
    improvement_count := 0
    stagnation_count := 0
    last_best_value := none
    minimize := true }

/-- `OptimizerProgress.update(current_best_value, minimize)`. -/
def OptimizerProgress.update (p : OptimizerProgress) (current_best_value : ℚ)
    (minimize : Bool := true) : OptimizerProgress :=
  let base := { p with
    iteration := p.iteration + 1
    minimize := minimize
    last_best_value := some current_best_value
    best_value_history := p.best_value_history ++ [current_best_value] }
  match p.last_best_value with
  | some last =>
    let improved := if minimize then current_best_value < last else last < current_best_value
    if improved then
      { base with improvement_count := p.improvement_count + 1, stagnation_count := 0 }
    else
      { base with stagnation_count := p.stagnation_count + 1, improvement_count := 0 }
  | none =>
    { base with improvement_count := 0, stagnation_count := 0 }

/-- `OptimizerProgress.has_improvement(threshold)`. -/
def OptimizerProgress.has_improvement (p : OptimizerProgress) (threshold : ℕ := 3) : Bool :=
  threshold ≤ p.improvement_count

/-- `OptimizerProgress.is_stagnant(threshold)`. -/
def OptimizerProgress.is_stagnant (p : OptimizerProgress) (threshold : ℕ := 5) : Bool :=
  threshold ≤ p.stagnation_count

/-- `OptimizerProgress.should_periodic_update(period)`. -/
def OptimizerProgress.should_periodic_update (p : OptimizerProgress) (period : ℕ := 10) : Bool :=
  0 < p.iteration ∧ p.iteration % period = 0

/-- A sequence of `update` calls applied from a starting state. -/
def OptimizerProgress.runUpdates (p : OptimizerProgress) (calls : List (ℚ × Bool)) :
    OptimizerProgress :=
  calls.foldl (fun st c => st.update c.1 c.2) p

theorem OptimizerProgress.update_counter (p : OptimizerProgress) (v : ℚ) (m : Bool) :
    (p.update v m).improvement_count = 0 ∨ (p.update v m).stagnation_count = 0 := by
  unfold OptimizerProgress.update
  cases h : p.last_best_value with
  | none => right; rfl
  | some last =>
    by_cases hi : (if m then v < last else last < v)
    · right; simp [hi]
    · left; simp [hi]

theorem OptimizerProgress.update_iteration (p : OptimizerProgress) (v : ℚ) (m : Bool) :
    (p.update v m).iteration = p.iteration + 1 := by
  unfold OptimizerProgress.update
  cases p.last_best_value with
  | none => rfl
  | some last =>
    by_cases hi : (if m then v < last else last < v) <;> simp [hi]

theorem OptimizerProgress.update_history (p : OptimizerProgress) (v : ℚ) (m : Bool) :
    (p.update v m).best_value_history = p.best_value_history ++ [v] := by
  unfold OptimizerProgress.update
  cases p.last_best_value with
  | none => rfl
  | some last =>
    by_cases hi : (if m then v < last else last < v) <;> simp [hi]

/-- **C10.** After every `OptimizerProgress.update` call in any sequence of
calls starting from the fresh state, at least one of `improvement_count`
and `stagnation_count` is zero, `iteration` grew by exactly one,
`best_value_history` grew by exactly one element, and for positive
thresholds `is_stagnant` and `has_improvement` cannot both hold. -/
theorem progress_update_invariants (calls : List (ℚ × Bool)) (v : ℚ) (m : Bool)
    (t₁ t₂ : ℕ) (h₁ : 0 < t₁) (h₂ : 0 < t₂) :
    (((OptimizerProgress.runUpdates .init calls).update v m).improvement_count = 0 ∨
      ((OptimizerProgress.runUpdates .init calls).update v m).stagnation_count = 0) ∧
    ((OptimizerProgress.runUpdates .init calls).update v m).iteration =
      (OptimizerProgress.runUpdates .init calls).iteration + 1 ∧
    ((OptimizerProgress.runUpdates .init calls).update v m).best_value_history.length =
      (OptimizerProgress.runUpdates .init calls).best_value_history.length + 1 ∧
    ¬(((OptimizerProgress.runUpdates .init calls).update v m).has_improvement t₁ = true ∧
      ((OptimizerProgress.runUpdates .init calls).update v m).is_stagnant t₂ = true) := by
  have main : ∀ p : OptimizerProgress,
      ((p.update v m).improvement_count = 0 ∨ (p.update v m).stagnation_count = 0) ∧
      (p.update v m).iteration = p.iteration + 1 ∧
      (p.update v m).best_value_history.length = p.best_value_history.length + 1 ∧
      ¬((p.update v m).has_improvement t₁ = true ∧ (p.update v m).is_stagnant t₂ = true) := by
    intro p
    refine ⟨p.update_counter v m, p.update_iteration v m, ?_, ?_⟩
    · rw [p.update_history v m]; simp
    · rintro ⟨hi, hs⟩
      simp only [OptimizerProgress.has_improvement, OptimizerProgress.is_stagnant,
        decide_eq_true_eq] at hi hs
      have hc := p.update_counter v m
      rcases hc with h | h <;> omega
  exact main (OptimizerProgress.runUpdates .init calls)

/-- Witness for C10 at a concrete two-call sequence with thresholds 1. -/
theorem progress_update_invariants_witness :
    (((OptimizerProgress.runUpdates .init [((3 : ℚ), true)]).update 2 true).improvement_count = 0 ∨
      ((OptimizerProgress.runUpdates .init [((3 : ℚ), true)]).update 2 true).stagnation_count = 0) ∧
    ((OptimizerProgress.runUpdates .init [((3 : ℚ), true)]).update 2 true).iteration =
      (OptimizerProgress.runUpdates .init [((3 : ℚ), true)]).iteration + 1 ∧
    ((OptimizerProgress.runUpdates .init [((3 : ℚ), true)]).update 2
        true).best_value_history.length =
      (OptimizerProgress.runUpdates .init [((3 : ℚ), true)]).best_value_history.length + 1 ∧
    ¬(((OptimizerProgress.runUpdates .init [((3 : ℚ), true)]).update 2
        true).has_improvement 1 = true ∧
      ((OptimizerProgress.runUpdates .init [((3 : ℚ), true)]).update 2
        true).is_stagnant 1 = true) :=
  progress_update_invariants [((3 : ℚ), true)] 2 true 1 1 (by decide) (by decide)

/-! ## `core/pipeline.py` — `CompressionPipeline.compress_space` and
`_determine_spaces` (claims C2 and C6)

The parameter-space type is abstract (`S`): `ConfigSpace` spaces are
external collaborators.  `copy.deepcopy` is value copying (identity in a
functional model) and `.seed(self.seed)` is modelled by an arbitrary
function `seedFn` applied exactly where the code calls `seed`.  A step's
`compress(space, history, similarities)` call, with the history fixed for
the whole pipeline run, is a function `S → S`. -/

/-- A compression step as the pipeline sees it: its `compress` behaviour and
the behaviour flags the pipeline queries. -/
structure PStep (S : Type) where
  compressFn : S → S
  needs_unproject : Bool
  affects_sampling : Bool
deriving Inhabited

/-- A step after the pipeline ran it: the pipeline stores `step.input_space`
and `step.output_space` as side effects of `compress_space`. -/
structure RanStep (S : Type) where
  step : PStep S
  input_space : S
  output_space : S
deriving Inhabited

/-- The step loop of `compress_space` (lines 42–67): each step receives the
current space, its output is reseeded and becomes the next current space. -/
def runChain {S : Type} (seedFn : S → S) :
    S → List (PStep S) → List (RanStep S)
  | _, [] => []
  | cur, s :: rest =>
    let out := seedFn (s.compressFn cur)
    ⟨s, cur, out⟩ :: runChain seedFn out rest

/-- `sample_space_idx` loop of `_determine_spaces` (lines 76–79). -/
def sampleSpaceIdx {S : Type} (steps : List (PStep S)) : ℕ :=
  steps.enum.foldl (fun acc p => if p.2.affects_sampling then p.1 + 1 else acc) 0

/-- Result of `compress_space`: the recorded steps, `space_after_steps` and
the three derived spaces from `_determine_spaces`. -/
structure PipelineResult (S : Type) where
  ranSteps : List (RanStep S)
  space_after_steps : List S
  surrogate_space : S
  sample_space : S
  unprojected_space : S

/-- `CompressionPipeline.compress_space` (lines 29–73) followed by
`_determine_spaces` (lines 75–92). -/
def compressSpace {S : Type} (seedFn : S → S) (original : S)
    (steps : List (PStep S)) : PipelineResult S :=
  let start := seedFn original
  let ran := runChain seedFn start steps
  let sas := start :: ran.map (·.output_space)
  { ranSteps := ran
    space_after_steps := sas
    surrogate_space := sas.getLast (List.cons_ne_nil _ _)
    sample_space := sas.getD (sampleSpaceIdx steps) start
    unprojected_space :=
      match steps.findIdx? (·.needs_unproject) with
      | some i => sas.getD i start
      | none => start }

theorem runChain_length {S : Type} (f : S → S) (steps : List (PStep S)) :
    ∀ cur, (runChain f cur steps).length = steps.length := by
  induction steps with
  | nil => intro cur; rfl
  | cons s rest ih => intro cur; simp [runChain, ih]

theorem runChain_getElem {S : Type} (f : S → S) (steps : List (PStep S)) :
    ∀ (cur : S) (i : ℕ) (rs : RanStep S), (runChain f cur steps)[i]? = some rs →
      (cur :: (runChain f cur steps).map (·.output_space))[i]? = some rs.input_space ∧
      ((runChain f cur steps).map (·.output_space))[i]? = some rs.output_space := by
  induction steps with
  | nil => intro cur i rs h; simp [runChain] at h
  | cons s rest ih =>
    intro cur i rs h
    cases i with
    | zero =>
      simp only [runChain, List.getElem?_cons_zero, Option.some.injEq] at h
      subst h
      simp [runChain]
    | succ i =>
      simp only [runChain, List.getElem?_cons_succ] at h
      have := ih (f (s.compressFn cur)) i rs h
      simpa [runChain] using this

/-- The steps of a ran chain are the input steps, in order. -/
theorem runChain_map_step {S : Type} (f : S → S) (steps : List (PStep S)) :
    ∀ cur, (runChain f cur steps).map (·.step) = steps := by
  induction steps with
  | nil => intro cur; rfl
  | cons s rest ih => intro cur; simp [runChain, ih]

/-- **C2.** After `compress_space` on any space and step chain:
`len(space_after_steps) = len(steps) + 1`; `space_after_steps[0]` is the
copied, reseeded original; `space_after_steps[i]`/`space_after_steps[i+1]`
are step `i`'s recorded `input_space`/`output_space`; consecutive steps are
chained (`output_space = next input_space`); and the surrogate space is the
last element of `space_after_steps`. -/
theorem compress_space_chain {S : Type} (seedFn : S → S) (original : S)
    (steps : List (PStep S)) :
    let r := compressSpace seedFn original steps
    r.space_after_steps.length = steps.length + 1 ∧
    r.space_after_steps.head? = some (seedFn original) ∧
    (∀ (i : ℕ) (rs : RanStep S), r.ranSteps[i]? = some rs →
      r.space_after_steps[i]? = some rs.input_space ∧
      r.space_after_steps[i + 1]? = some rs.output_space) ∧
    (∀ (i : ℕ) (rs rs' : RanStep S), r.ranSteps[i]? = some rs →
      r.ranSteps[i + 1]? = some rs' → rs'.input_space = rs.output_space) ∧
    r.space_after_steps.getLast? = some r.surrogate_space := by
  refine ⟨?_, rfl, ?_, ?_, ?_⟩
  · simp [compressSpace, runChain_length]
  · intro i rs h
    have hh := runChain_getElem seedFn steps (seedFn original) i rs h
    refine ⟨hh.1, ?_⟩
    show ((seedFn original) ::
      (runChain seedFn (seedFn original) steps).map (·.output_space))[i + 1]? =
        some rs.output_space
    rw [List.getElem?_cons_succ]
    exact hh.2
  · intro i rs rs' h h'
    have h2 := (runChain_getElem seedFn steps (seedFn original) (i + 1) rs' h').1
    have h1 := (runChain_getElem seedFn steps (seedFn original) i rs h).2
    simp only [List.getElem?_cons_succ] at h2
    rw [h1] at h2
    exact (Option.some.injEq _ _).mp h2.symm
  · exact List.getLast?_eq_getLast _ _

/-- Witness for C2 on a concrete one-step chain over `S := ℕ`. -/
theorem compress_space_chain_witness :
    (compressSpace (S := ℕ) id 0 [⟨fun n => n + 1, true, true⟩]).space_after_steps.length
        = 1 + 1 ∧
    (compressSpace (S := ℕ) id 0
        [⟨fun n => n + 1, true, true⟩]).space_after_steps[0 + 1]? =
      some (RanStep.output_space ⟨⟨fun n => n + 1, true, true⟩, 0, 1⟩) := by
  have h := compress_space_chain (S := ℕ) id 0 [⟨fun n => n + 1, true, true⟩]
  exact ⟨h.1, (h.2.2.1 0 ⟨⟨fun n => n + 1, true, true⟩, 0, 1⟩ (by rfl)).2⟩

/-- The running space at the end of a chain (the value `current_space`
holds after the step loop). -/
def chainEnd {S : Type} (f : S → S) (cur : S)
    (steps : List (PStep S)) : S :=
  (cur :: (runChain f cur steps).map (·.output_space)).getLast (List.cons_ne_nil _ _)

theorem chainEnd_nil {S : Type} (f : S → S) (cur : S) :
    chainEnd f cur [] = cur := rfl

theorem chainEnd_cons {S : Type} (f : S → S) (cur : S) (s : PStep S)
    (rest : List (PStep S)) :
    chainEnd f cur (s :: rest) = chainEnd f (f (s.compressFn cur)) rest := by
  unfold chainEnd
  simp only [runChain, List.map_cons]
  exact List.getLast_cons _

theorem runChain_concat {S : Type} (f : S → S) (init : List (PStep S))
    (s : PStep S) : ∀ cur,
    runChain f cur (init ++ [s]) =
      runChain f cur init ++
        [⟨s, chainEnd f cur init, f (s.compressFn (chainEnd f cur init))⟩] := by
  induction init with
  | nil => intro cur; simp [runChain, chainEnd_nil]
  | cons t rest ih =>
    intro cur
    simp only [List.cons_append, runChain, List.append_eq, ih, chainEnd_cons]

theorem enumFrom_concat {α : Type} (l : List α) (a : α) :
    ∀ n, List.enumFrom n (l ++ [a]) = List.enumFrom n l ++ [(n + l.length, a)] := by
  induction l with
  | nil => intro n; simp [List.enumFrom]
  | cons x xs ih =>
    intro n
    have hn : n + 1 + xs.length = n + (xs.length + 1) := by omega
    simp only [List.cons_append, List.enumFrom, List.append_eq, ih, List.length_cons, hn]

theorem sampleSpaceIdx_concat {S : Type} (init : List (PStep S)) (s : PStep S) :
    sampleSpaceIdx (init ++ [s]) =
      if s.affects_sampling then init.length + 1 else sampleSpaceIdx init := by
  unfold sampleSpaceIdx
  rw [List.enum, enumFrom_concat, List.foldl_append]
  simp [List.enum]

theorem sampleSpaceIdx_le {S : Type} (steps : List (PStep S)) :
    sampleSpaceIdx steps ≤ steps.length := by
  induction steps using List.reverseRecOn with
  | nil => simp [sampleSpaceIdx, List.enum, List.enumFrom]
  | append_singleton init s ih =>
    rw [sampleSpaceIdx_concat]
    by_cases hs : s.affects_sampling
    · simp [hs]
    · rw [if_neg hs]
      simp only [List.length_append, List.length_singleton]
      omega

theorem chainEnd_spec {S : Type} (f : S → S) (steps : List (PStep S)) :
    ∀ cur, chainEnd f cur steps =
      match (runChain f cur steps).getLast? with
      | some rs => rs.output_space
      | none => cur := by
  induction steps using List.reverseRecOn with
  | nil => intro cur; rfl
  | append_singleton init s _ =>
    intro cur
    rw [runChain_concat, List.getLast?_concat]
    have hne : ((cur :: (runChain f cur (init ++ [s])).map (·.output_space))) ≠ [] :=
      List.cons_ne_nil _ _
    have h1 := List.getLast?_eq_getLast _ hne
    have h2 : (cur :: (runChain f cur (init ++ [s])).map (·.output_space)).getLast? =
        some (f (s.compressFn (chainEnd f cur init))) := by
      rw [runChain_concat, List.map_append]
      show ((cur :: (runChain f cur init).map (·.output_space)) ++
        [f (s.compressFn (chainEnd f cur init))]).getLast? = _
      rw [List.getLast?_concat]
    rw [h1] at h2
    exact Option.some.inj h2

theorem sample_space_lemma {S : Type} (f : S → S) (steps : List (PStep S)) :
    ∀ cur, (cur :: (runChain f cur steps).map (·.output_space)).getD (sampleSpaceIdx steps) cur =
      match ((runChain f cur steps).filter (fun rs => rs.step.affects_sampling)).getLast? with
      | some rs => rs.output_space
      | none => cur := by
  induction steps using List.reverseRecOn with
  | nil => intro cur; rfl
  | append_singleton init s ih =>
    intro cur
    rw [runChain_concat, sampleSpaceIdx_concat, List.filter_append, List.map_append]
    have hlen : ((runChain f cur init).map (·.output_space)).length = init.length :=
      by rw [List.length_map, runChain_length]
    by_cases hs : s.affects_sampling
    · rw [if_pos hs]
      have hfil : List.filter (fun rs => rs.step.affects_sampling)
          [(⟨s, chainEnd f cur init, f (s.compressFn (chainEnd f cur init))⟩ : RanStep S)] =
          [⟨s, chainEnd f cur init, f (s.compressFn (chainEnd f cur init))⟩] := by
        simp [List.filter, hs]
      rw [hfil, List.getLast?_concat]
      show ((cur :: (runChain f cur init).map (·.output_space)) ++
        [f (s.compressFn (chainEnd f cur init))]).getD (init.length + 1) cur = _
      rw [List.getD_eq_getElem?_getD, List.getElem?_append_right (by simp [hlen])]
      simp [hlen]
    · rw [if_neg hs]
      have hfil : List.filter (fun rs => rs.step.affects_sampling)
          [(⟨s, chainEnd f cur init, f (s.compressFn (chainEnd f cur init))⟩ : RanStep S)] =
          [] := by
        simp [List.filter, hs]
      rw [hfil, List.append_nil]
      have hidx : sampleSpaceIdx init < (cur :: (runChain f cur init).map (·.output_space)).length := by
        simp only [List.length_cons, hlen]
        exact Nat.lt_succ_of_le (sampleSpaceIdx_le init)
      show ((cur :: (runChain f cur init).map (·.output_space)) ++
        [f (s.compressFn (chainEnd f cur init))]).getD (sampleSpaceIdx init) cur = _
      rw [List.getD_eq_getElem?_getD, List.getElem?_append, if_pos hidx]
      rw [← List.getD_eq_getElem?_getD]
      exact ih cur

theorem unproj_space_lemma {S : Type} (f : S → S) (steps : List (PStep S)) :
    ∀ cur, (match steps.findIdx? (·.needs_unproject) with
      | some i => (cur :: (runChain f cur steps).map (·.output_space)).getD i cur
      | none => cur) =
      match (runChain f cur steps).find? (fun rs => rs.step.needs_unproject) with
      | some rs => rs.input_space
      | none => cur := by
  induction steps with
  | nil => intro cur; rfl
  | cons s rest ih =>
    intro cur
    rw [List.findIdx?_cons]
    by_cases hp : s.needs_unproject
    · rw [if_pos hp]
      show cur = _
      simp only [runChain, List.find?_cons]
      rw [hp]
    · have hpf : s.needs_unproject = false := by simpa using hp
      rw [if_neg hp, List.findIdx?_succ]
      have hfind : (runChain f cur (s :: rest)).find? (fun rs => rs.step.needs_unproject) =
          (runChain f (f (s.compressFn cur)) rest).find? (fun rs => rs.step.needs_unproject) := by
        simp only [runChain, List.find?_cons]
        rw [hpf]
      rw [hfind]
      cases hidx : rest.findIdx? (·.needs_unproject) with
      | none =>
        simp only [Option.map_none']
        have hall := List.findIdx?_eq_none_iff.mp hidx
        have : (runChain f (f (s.compressFn cur)) rest).find?
            (fun rs => rs.step.needs_unproject) = none := by
          rw [List.find?_eq_none]
          intro rs hrs
          have : rs.step ∈ rest := by
            rw [← runChain_map_step f rest (f (s.compressFn cur))]
            exact List.mem_map_of_mem _ hrs
          simpa using hall rs.step this
        rw [this]
      | some i =>
        simp only [Option.map_some']
        have hi : i < rest.length :=
          (List.findIdx?_eq_some_iff_findIdx_eq.mp hidx).1
        cases hfq : (runChain f (f (s.compressFn cur)) rest).find?
            (fun rs => rs.step.needs_unproject) with
        | none =>
          exfalso
          have hall := List.find?_eq_none.mp hfq
          have : rest.findIdx? (·.needs_unproject) = none := by
            rw [List.findIdx?_eq_none_iff]
            intro x hx
            obtain ⟨rs, hrs, hstep⟩ := by
              have hmem : x ∈ (runChain f (f (s.compressFn cur)) rest).map (·.step) := by
                rw [runChain_map_step]; exact hx
              exact List.mem_map.mp hmem
            have := hall rs hrs
            rw [← hstep]
            simpa using this
          rw [this] at hidx
          exact Option.noConfusion hidx
        | some rs =>
          have hkey : ((f (s.compressFn cur)) ::
              (runChain f (f (s.compressFn cur)) rest).map (·.output_space)).getD i
                (f (s.compressFn cur)) = rs.input_space := by
            have := ih (f (s.compressFn cur))
            rw [hidx, hfq] at this
            exact this
          show (cur :: (runChain f cur (s :: rest)).map (·.output_space)).getD (i + 1) cur =
            rs.input_space
          simp only [runChain, List.map_cons, List.getD_cons_succ]
          rw [List.getD_eq_getElem?_getD]
          rw [List.getD_eq_getElem?_getD] at hkey
          have hlt : i < ((f (s.compressFn cur)) ::
              (runChain f (f (s.compressFn cur)) rest).map (·.output_space)).length := by
            simp only [List.length_cons, List.length_map, runChain_length]
            omega
          obtain ⟨a, ha⟩ : ∃ a, ((f (s.compressFn cur)) ::
              (runChain f (f (s.compressFn cur)) rest).map (·.output_space))[i]? = some a :=
            ⟨_, List.getElem?_eq_getElem hlt⟩
          rw [ha] at hkey ⊢
          exact hkey

/-- **C6.** After every `compress_space`: the surrogate space is the output
of the last step; the sample space is the output of the last step whose
`affects_sampling_space()` is true (the copied original space if none);
the unprojected space is the input of the first step whose
`needs_unproject()` is true (the copied original space if none). -/
theorem determine_spaces_spec {S : Type} (seedFn : S → S) (original : S)
    (steps : List (PStep S)) :
    let r := compressSpace seedFn original steps
    (r.surrogate_space = match r.ranSteps.getLast? with
      | some rs => rs.output_space
      | none => seedFn original) ∧
    (r.sample_space = match (r.ranSteps.filter (fun rs => rs.step.affects_sampling)).getLast? with
      | some rs => rs.output_space
      | none => seedFn original) ∧
    (r.unprojected_space = match r.ranSteps.find? (fun rs => rs.step.needs_unproject) with
      | some rs => rs.input_space
      | none => seedFn original) :=
  ⟨chainEnd_spec seedFn steps (seedFn original),
   sample_space_lemma seedFn steps (seedFn original),
   unproj_space_lemma seedFn steps (seedFn original)⟩

/-- Witness for C6 on a concrete one-step chain over `S := ℕ`. -/
theorem determine_spaces_spec_witness :
    (compressSpace (S := ℕ) id 0 [⟨fun n => n + 3, true, true⟩]).surrogate_space = 3 ∧
    (compressSpace (S := ℕ) id 0 [⟨fun n => n + 3, true, true⟩]).sample_space = 3 ∧
    (compressSpace (S := ℕ) id 0 [⟨fun n => n + 3, true, true⟩]).unprojected_space = 0 := by
  have h := determine_spaces_spec (S := ℕ) id 0 [⟨fun n => n + 3, true, true⟩]
  exact ⟨h.1.trans rfl, h.2.1.trans rfl, h.2.2.trans rfl⟩

/-! ## `core/pipeline.py` — `update_compression` restart decision (claim C1)

A step is modelled by the data `update_compression` reads from it: the
`supports_adaptive_update()` flag, the boolean its `update(progress,
history)` call returned, its `current_topk` / `initial_topk` attributes
(as `Option`, `none` meaning the attribute is absent, i.e. `hasattr` is
false) as they stand after the update call, and
`uses_progressive_compression()`. -/

/-- What `update_compression` observes of one step. -/
structure UStep where
  supports_adaptive : Bool
  update_reports : Bool
  current_topk : Option ℤ
  initial_topk : Option ℤ
  uses_progressive : Bool
deriving Repr, DecidableEq

/-- The `updated_steps` list collected by the loop at lines 106–113. -/
def updatedSteps (steps : List UStep) : List UStep :=
  steps.filter (fun s => s.supports_adaptive && s.update_reports)

/-- The `needs_original_space` test of lines 119–125 for one updated step:
both `current_topk` and `initial_topk` attributes must exist, the surrogate
space must be truthy (present and nonempty, since `ConfigurationSpace`
defines `__len__`), and `current_topk` must exceed the surrogate's
parameter count. -/
def stepNeedsOriginal {S : Type} (sizeFn : S → ℕ) (surrogate : Option S)
    (s : UStep) : Bool :=
  s.current_topk.isSome && s.initial_topk.isSome &&
    match surrogate, s.current_topk with
    | some sp, some c => decide (0 < sizeFn sp) && decide ((sizeFn sp : ℤ) < c)
    | _, _ => false

/-- The restart-point policy of lines 119–137, given a present
`original_space`.  `some s` is the space re-compression starts from. -/
def restartSpace {S : Type} (sizeFn : S → ℕ) (steps : List UStep) (orig : S)
    (surrogate : Option S) : Option S :=
  let updated := updatedSteps steps
  if updated.any (stepNeedsOriginal sizeFn surrogate) then some orig
  else if updated.all (·.uses_progressive) then surrogate
  else some orig

/-- `CompressionPipeline.update_compression` (lines 103–145), reduced to its
observable decision: whether it re-compresses, and from which space. -/
def updateCompression {S : Type} (sizeFn : S → ℕ) (steps : List UStep)
    (original surrogate : Option S) : Bool × Option S :=
  let updated := updatedSteps steps
  match original with
  | some orig =>
      if updated.isEmpty then (false, none)
      else (true, restartSpace sizeFn steps orig surrogate)
  | none => (false, none)

/-- **C1.** When `update_compression` has at least one step reporting an
update: if some updated step's `current_topk` exceeds the (nonempty)
surrogate space's parameter count, re-compression restarts from the
original space; otherwise, if every updated step uses progressive
compression, it restarts from the current surrogate space; otherwise it
restarts from the original space. -/
theorem update_compression_restart {S : Type} (sizeFn : S → ℕ) (steps : List UStep)
    (orig sp : S) (hsz : 0 < sizeFn sp) (hne : updatedSteps steps ≠ []) :
    let res := updateCompression sizeFn steps (some orig) (some sp)
    res.1 = true ∧
    ((∃ s ∈ updatedSteps steps, ∃ c, s.current_topk = some c ∧ s.initial_topk.isSome ∧
        (sizeFn sp : ℤ) < c) → res.2 = some orig) ∧
    ((¬∃ s ∈ updatedSteps steps, ∃ c, s.current_topk = some c ∧ s.initial_topk.isSome ∧
        (sizeFn sp : ℤ) < c) → (∀ s ∈ updatedSteps steps, s.uses_progressive) →
      res.2 = some sp) ∧
    ((¬∃ s ∈ updatedSteps steps, ∃ c, s.current_topk = some c ∧ s.initial_topk.isSome ∧
        (sizeFn sp : ℤ) < c) → (∃ s ∈ updatedSteps steps, ¬s.uses_progressive) →
      res.2 = some orig) := by
  have hany : (updatedSteps steps).any (stepNeedsOriginal sizeFn (some sp)) = true ↔
      (∃ s ∈ updatedSteps steps, ∃ c, s.current_topk = some c ∧ s.initial_topk.isSome ∧
        (sizeFn sp : ℤ) < c) := by
    rw [List.any_eq_true]
    constructor
    · rintro ⟨s, hs, hpred⟩
      unfold stepNeedsOriginal at hpred
      cases hc : s.current_topk with
      | none => rw [hc] at hpred; simp at hpred
      | some c =>
        rw [hc] at hpred
        simp only [Option.isSome_some, Bool.true_and, Bool.and_eq_true,
          decide_eq_true_eq] at hpred
        exact ⟨s, hs, c, hc, hpred.1, hpred.2.2⟩
    · rintro ⟨s, hs, c, hc, hinit, hlt⟩
      refine ⟨s, hs, ?_⟩
      unfold stepNeedsOriginal
      rw [hc]
      simp only [Option.isSome_some, Bool.true_and, Bool.and_eq_true, decide_eq_true_eq]
      exact ⟨hinit, hsz, hlt⟩
  have hres : updateCompression sizeFn steps (some orig) (some sp) =
      (true, restartSpace sizeFn steps orig (some sp)) := by
    show (if (updatedSteps steps).isEmpty = true then ((false : Bool), (none : Option S))
      else (true, restartSpace sizeFn steps orig (some sp))) =
      (true, restartSpace sizeFn steps orig (some sp))
    rw [if_neg (by simpa [List.isEmpty_iff] using hne)]
  refine ⟨by rw [hres], ?_, ?_, ?_⟩
  · intro hex
    rw [hres]
    show restartSpace sizeFn steps orig (some sp) = some orig
    unfold restartSpace
    rw [if_pos (hany.mpr hex)]
  · intro hnex hall
    rw [hres]
    show restartSpace sizeFn steps orig (some sp) = some sp
    unfold restartSpace
    rw [if_neg (fun h => hnex (hany.mp h)),
      if_pos (List.all_eq_true.mpr (fun s hs => hall s hs))]
  · rintro hnex ⟨s, hs, hnp⟩
    rw [hres]
    show restartSpace sizeFn steps orig (some sp) = some orig
    unfold restartSpace
    rw [if_neg (fun h => hnex (hany.mp h)),
      if_neg (fun h => hnp (List.all_eq_true.mp h s hs))]

/-- Witness for C1 exactly at the spec's two scenarios: surrogate size 10
with an updated step's `current_topk` at 15 (restart from original) and at
6 with progressive compression (restart from the surrogate). -/
theorem update_compression_restart_witness :
    (updateCompression (S := ℕ) id
      [⟨true, true, some 15, some 10, true⟩] (some 99) (some 10)).2 = some 99 ∧
    (updateCompression (S := ℕ) id
      [⟨true, true, some 6, some 10, true⟩] (some 99) (some 10)).2 = some 10 := by
  constructor
  · exact (update_compression_restart (S := ℕ) id
      [⟨true, true, some 15, some 10, true⟩] 99 10 (by decide) (by decide)).2.1
      ⟨⟨true, true, some 15, some 10, true⟩, by decide, 15, rfl, rfl, by decide⟩
  · exact (update_compression_restart (S := ℕ) id
      [⟨true, true, some 6, some 10, true⟩] 99 10 (by decide) (by decide)).2.2.1
      (by decide) (by decide)

/-! ## `dimensio/sampling/mixed.py` — `MixedRangeSamplingStrategy` (claim C8)

A configuration is represented by its `_sampled_from` tag (`none` models a
configuration without the attribute) together with its performance value.
Performance values are objective values: lower is better (the code logs
"Original range performing better" when the original mean is smaller). -/

/-- Mutable state of `MixedRangeSamplingStrategy`. -/
structure MixedState where
  compressed_prob : ℚ
  compressed_results : List ℚ
  original_results : List ℚ
deriving Repr, DecidableEq

/-- The constructor: `compressed_prob = initial_prob`, empty result lists. -/
def MixedState.init (initial_prob : ℚ) : MixedState :=
  ⟨initial_prob, [], []⟩

/-- `compressed_perf` collected by `update_probabilities` (lines 53–58). -/
def compressedPerf (results : List (Option String × ℚ)) : List ℚ :=
  (results.filter (fun r => r.1 == some "compressed")).map (·.2)

/-- `original_perf` collected by `update_probabilities` (lines 53–58). -/
def originalPerf (results : List (Option String × ℚ)) : List ℚ :=
  (results.filter (fun r => r.1 == some "original")).map (·.2)

/-- `MixedRangeSamplingStrategy.update_probabilities` (lines 49–72). -/
def updateProbabilities (st : MixedState) (results : List (Option String × ℚ)) :
    MixedState :=
  let compressed_perf := compressedPerf results
  let original_perf := originalPerf results
  let st' := { st with
    compressed_results := st.compressed_results ++ compressed_perf
    original_results := st.original_results ++ original_perf }
  if 0 < compressed_perf.length ∧ 0 < original_perf.length then
    let compressed_mean := compressed_perf.sum / compressed_perf.length
    let original_mean := original_perf.sum / original_perf.length
    if original_mean < compressed_mean then
      { st' with compressed_prob := max (1/2) (st.compressed_prob - 1/10) }
    else
      { st' with compressed_prob := min (19/20) (st.compressed_prob + 1/20) }
  else st'

/-- `MixedRangeSamplingStrategy.sample` draws one configuration from the
compressed space exactly when the uniform draw is below `compressed_prob`
(lines 37–47). -/
def samplesCompressed (st : MixedState) (u : ℚ) : Bool :=
  u < st.compressed_prob

/-- **C8 counterexample.** With the configured initial probability 0.95 and
a batch whose compressed samples strictly outperform the original samples
on average (mean 1 vs mean 2), the probability does *not* increase: it is
capped at 0.95.  The claim's "increases when compressed-space samples
outperform original-space samples on average" is therefore false as
stated. -/
theorem mixed_prob_not_increasing_counterexample :
    let st := MixedState.init (19/20)
    let st' := updateProbabilities st [(some "compressed", 1), (some "original", 2)]
    (compressedPerf [((some "compressed" : Option String), (1 : ℚ)), (some "original", 2)]).sum /
        (compressedPerf [((some "compressed" : Option String), (1 : ℚ)),
          (some "original", 2)]).length <
      (originalPerf [((some "compressed" : Option String), (1 : ℚ)), (some "original", 2)]).sum /
        (originalPerf [((some "compressed" : Option String), (1 : ℚ)),
          (some "original", 2)]).length ∧
    ¬(st.compressed_prob < st'.compressed_prob) := by
  intro st st'
  have hcp : compressedPerf [((some "compressed" : Option String), (1 : ℚ)),
      (some "original", 2)] = [1] := rfl
  have hop : originalPerf [((some "compressed" : Option String), (1 : ℚ)),
      (some "original", 2)] = [2] := rfl
  have hmean : (compressedPerf [((some "compressed" : Option String), (1 : ℚ)),
        (some "original", 2)]).sum /
      (compressedPerf [((some "compressed" : Option String), (1 : ℚ)),
        (some "original", 2)]).length <
      (originalPerf [((some "compressed" : Option String), (1 : ℚ)), (some "original", 2)]).sum /
      (originalPerf [((some "compressed" : Option String), (1 : ℚ)),
        (some "original", 2)]).length := by
    rw [hcp, hop]
    simp only [List.sum_cons, List.sum_nil, List.length_singleton]
    norm_num
  refine ⟨hmean, ?_⟩
  have hval : st'.compressed_prob = min (19/20) (19/20 + 1/20) := by
    show (updateProbabilities (MixedState.init (19/20))
      [(some "compressed", 1), (some "original", 2)]).compressed_prob = _
    simp only [updateProbabilities, hcp, hop]
    rw [if_pos (by norm_num), if_neg (by
      simp only [List.sum_cons, List.sum_nil, List.length_singleton]
      norm_num)]
    rfl
  have hst : st.compressed_prob = 19/20 := rfl
  rw [hval, hst]
  norm_num

/-- **C8 (amended).** The probability starts at the configured initial
value.  When a batch contains evaluated samples from both spaces,
`update_probabilities` moves the probability up by 0.05 capped at 0.95 when
the compressed-space mean is at most the original-space mean, and down by
0.1 floored at 0.5 otherwise; consequently it is non-decreasing in the
first case, non-increasing in the second, and whenever the current
probability lies in [0.5, 0.95] the adjusted probability stays in
[0.5, 0.95].  Batches missing either side leave the probability
unchanged. -/
theorem mixed_update_probabilities_spec (p₀ : ℚ) (st : MixedState)
    (results : List (Option String × ℚ))
    (hlo : 1/2 ≤ st.compressed_prob) (hhi : st.compressed_prob ≤ 19/20) :
    let st' := updateProbabilities st results
    let cp := compressedPerf results
    let op := originalPerf results
    (MixedState.init p₀).compressed_prob = p₀ ∧
    (1/2 ≤ st'.compressed_prob ∧ st'.compressed_prob ≤ 19/20) ∧
    (0 < cp.length → 0 < op.length → cp.sum / cp.length ≤ op.sum / op.length →
      st.compressed_prob ≤ st'.compressed_prob ∧
      st'.compressed_prob = min (19/20) (st.compressed_prob + 1/20)) ∧
    (0 < cp.length → 0 < op.length → op.sum / op.length < cp.sum / cp.length →
      st'.compressed_prob ≤ st.compressed_prob ∧
      st'.compressed_prob = max (1/2) (st.compressed_prob - 1/10)) ∧
    (¬(0 < cp.length ∧ 0 < op.length) → st'.compressed_prob = st.compressed_prob) := by
  intro st' cp op
  have hdec : ∀ (hb : 0 < cp.length ∧ 0 < op.length),
      op.sum / op.length < cp.sum / cp.length →
      st'.compressed_prob = max (1/2) (st.compressed_prob - 1/10) := by
    intro hb hm
    show (updateProbabilities st results).compressed_prob = _
    simp only [updateProbabilities]
    rw [if_pos hb, if_pos hm]
  have hinc : ∀ (hb : 0 < cp.length ∧ 0 < op.length),
      ¬(op.sum / op.length < cp.sum / cp.length) →
      st'.compressed_prob = min (19/20) (st.compressed_prob + 1/20) := by
    intro hb hm
    show (updateProbabilities st results).compressed_prob = _
    simp only [updateProbabilities]
    rw [if_pos hb, if_neg hm]
  have hnoop : ¬(0 < cp.length ∧ 0 < op.length) →
      st'.compressed_prob = st.compressed_prob := by
    intro hb
    show (updateProbabilities st results).compressed_prob = _
    simp only [updateProbabilities]
    rw [if_neg hb]
  refine ⟨rfl, ?_, ?_, ?_, hnoop⟩
  · by_cases hb : 0 < cp.length ∧ 0 < op.length
    · by_cases hm : op.sum / op.length < cp.sum / cp.length
      · rw [hdec hb hm]
        refine ⟨le_max_left _ _, ?_⟩
        rw [max_le_iff]
        constructor <;> linarith
      · rw [hinc hb hm]
        refine ⟨?_, min_le_left _ _⟩
        rw [le_min_iff]
        constructor <;> linarith
    · rw [hnoop hb]
      exact ⟨hlo, hhi⟩
  · intro hc ho hle
    have heq := hinc ⟨hc, ho⟩ (not_lt.mpr hle)
    refine ⟨?_, heq⟩
    rw [heq, le_min_iff]
    constructor <;> linarith
  · intro hc ho hlt
    have heq := hdec ⟨hc, ho⟩ hlt
    refine ⟨?_, heq⟩
    rw [heq, max_le_iff]
    constructor <;> linarith

/-- Witness for the amended C8 at the default initial probability 0.9 and a
two-sample batch where the compressed space outperforms. -/
theorem mixed_update_probabilities_spec_witness :
    (updateProbabilities (MixedState.init (9/10))
      [(some "compressed", 1), (some "original", 2)]).compressed_prob = 19/20 := by
  have hcp : compressedPerf [((some "compressed" : Option String), (1 : ℚ)),
      (some "original", 2)] = [1] := rfl
  have hop : originalPerf [((some "compressed" : Option String), (1 : ℚ)),
      (some "original", 2)] = [2] := rfl
  have h := mixed_update_probabilities_spec (9/10) (MixedState.init (9/10))
    [(some "compressed", 1), (some "original", 2)]
    (by norm_num [MixedState.init]) (by norm_num [MixedState.init])
  have h2 := (h.2.2.1 (by rw [hcp]; norm_num) (by rw [hop]; norm_num)
    (by rw [hcp, hop]
        simp only [List.sum_cons, List.sum_nil, List.length_singleton]
        norm_num)).2
  rw [h2]
  rw [show (MixedState.init ((9 : ℚ)/10)).compressed_prob = 9/10 from rfl]
  rw [show (9 : ℚ)/10 + 1/20 = 19/20 by norm_num, min_self]

/-! ## `steps/projection/quantization.py` — `QuantizationProjectionStep`
(claim C4)

The fitted `MinMaxScaler(feature_range=(lower, upper)).fit([[1], [max]])`
is the affine map `[1, max] → [lower, upper]`; `transform` /
`inverse_transform` are embedded as exact rational affine maps.  Python's
`round` is `pyRound` (half to even) and `int(...)` is `pyInt` (truncation
toward zero). -/

/-- `scaler.transform`: `q ∈ [1, max_num_values] ↦ [lower, upper]`. -/
def scalerTransform (lower upper M : ℤ) (q : ℚ) : ℚ :=
  (q - 1) / ((M : ℚ) - 1) * ((upper : ℚ) - (lower : ℚ)) + (lower : ℚ)

/-- `scaler.inverse_transform`: `v ∈ [lower, upper] ↦ [1, max_num_values]`. -/
def scalerInverse (lower upper M : ℤ) (v : ℚ) : ℚ :=
  (v - (lower : ℚ)) / ((upper : ℚ) - (lower : ℚ)) * ((M : ℚ) - 1) + 1

/-- `_needs_quantization` (lines 96–97). -/
def needsQuantization (lower upper M : ℤ) : Bool :=
  decide (M < upper - lower + 1)

/-- `project_point` on one quantized value (lines 143–146): clamp to
`[lower, upper]`, inverse-transform, round, clamp to `[1, max]`. -/
def projectValue (lower upper M : ℤ) (v : ℚ) : ℤ :=
  let value_clamped := max (lower : ℚ) (min (upper : ℚ) v)
  let q := pyRound (scalerInverse lower upper M value_clamped)
  max 1 (min M q)

/-- `unproject_point` on one quantized value (lines 117–122): transform,
truncate with `int(...)`, clamp to `[lower, upper]`. -/
def unprojectValue (lower upper M : ℤ) (q : ℚ) : ℤ :=
  let value := pyInt (scalerTransform lower upper M q)
  max lower (min upper value)

theorem pyRound_mem {x : ℚ} {a b : ℤ} (h1 : (a : ℚ) ≤ x) (h2 : x ≤ (b : ℚ)) :
    a ≤ pyRound x ∧ pyRound x ≤ b := by
  have hb := pyRound_sub_le x
  rw [abs_le] at hb
  constructor
  · have h : (a : ℚ) - 1 < (pyRound x : ℚ) := by linarith
    have h' : a - 1 < pyRound x := by exact_mod_cast h
    omega
  · have h : (pyRound x : ℚ) < (b : ℚ) + 1 := by linarith
    have h' : pyRound x < b + 1 := by exact_mod_cast h
    omega

theorem pyInt_mem {x : ℚ} {a b : ℤ} (h1 : (a : ℚ) ≤ x) (h2 : x ≤ (b : ℚ)) :
    a ≤ pyInt x ∧ pyInt x ≤ b := by
  unfold pyInt
  by_cases h : 0 ≤ x
  · rw [if_pos h]
    refine ⟨Int.le_floor.mpr h1, ?_⟩
    have := (Int.floor_le x).trans h2
    exact_mod_cast this
  · rw [if_neg h]
    refine ⟨?_, Int.ceil_le.mpr h2⟩
    have := h1.trans (Int.le_ceil x)
    exact_mod_cast this

theorem scalerInverse_mem (lower upper M v : ℤ) (hM : 2 ≤ M) (hlt : lower < upper)
    (hv1 : lower ≤ v) (hv2 : v ≤ upper) :
    1 ≤ scalerInverse lower upper M (v : ℚ) ∧
    scalerInverse lower upper M (v : ℚ) ≤ (M : ℚ) := by
  have hW : (0 : ℚ) < (upper : ℚ) - lower := by
    rw [sub_pos]; exact_mod_cast hlt
  have hr0 : (0 : ℚ) ≤ ((v : ℚ) - lower) / ((upper : ℚ) - lower) := by
    apply div_nonneg _ (le_of_lt hW)
    rw [sub_nonneg]; exact_mod_cast hv1
  have hr1 : ((v : ℚ) - lower) / ((upper : ℚ) - lower) ≤ 1 := by
    rw [div_le_one hW]
    have : (v : ℚ) ≤ upper := by exact_mod_cast hv2
    linarith
  have hM1 : (0 : ℚ) ≤ (M : ℚ) - 1 := by
    have : (2 : ℚ) ≤ (M : ℚ) := by exact_mod_cast hM
    linarith
  unfold scalerInverse
  constructor
  · nlinarith
  · nlinarith

theorem scalerTransform_mem (lower upper M q : ℤ) (hM : 2 ≤ M) (hlt : lower < upper)
    (hq1 : 1 ≤ q) (hq2 : q ≤ M) :
    (lower : ℚ) ≤ scalerTransform lower upper M (q : ℚ) ∧
    scalerTransform lower upper M (q : ℚ) ≤ (upper : ℚ) := by
  have hW : (0 : ℚ) ≤ (upper : ℚ) - lower := by
    rw [sub_nonneg]; exact_mod_cast le_of_lt hlt
  have hMpos : (0 : ℚ) < (M : ℚ) - 1 := by
    have : (2 : ℚ) ≤ (M : ℚ) := by exact_mod_cast hM
    linarith
  have hr0 : (0 : ℚ) ≤ ((q : ℚ) - 1) / ((M : ℚ) - 1) := by
    apply div_nonneg _ (le_of_lt hMpos)
    have : (1 : ℚ) ≤ (q : ℚ) := by exact_mod_cast hq1
    linarith
  have hr1 : ((q : ℚ) - 1) / ((M : ℚ) - 1) ≤ 1 := by
    rw [div_le_one hMpos]
    have : (q : ℚ) ≤ (M : ℚ) := by exact_mod_cast hq2
    linarith
  unfold scalerTransform
  constructor
  · nlinarith
  · nlinarith

/-- Round-trip error bound for one quantized integer value: at most one
quantization bucket, i.e. `|roundtrip(v) - v| ≤ (upper-lower)/(max-1)`. -/
theorem quantization_value_bound (lower upper M v : ℤ) (hM : 2 ≤ M)
    (hW : M ≤ upper - lower) (hv1 : lower ≤ v) (hv2 : v ≤ upper) :
    |unprojectValue lower upper M ((projectValue lower upper M (v : ℚ)) : ℚ) - v| * (M - 1) ≤
      upper - lower := by
  have hlt : lower < upper := by omega
  have hWq : (0 : ℚ) < (upper : ℚ) - lower := by
    rw [sub_pos]; exact_mod_cast hlt
  have hMq : (0 : ℚ) < (M : ℚ) - 1 := by
    have : (2 : ℚ) ≤ (M : ℚ) := by exact_mod_cast hM
    linarith
  -- the clamp of v in project_point is a no-op
  have hclamp : max (lower : ℚ) (min (upper : ℚ) (v : ℚ)) = (v : ℚ) := by
    rw [min_eq_right (by exact_mod_cast hv2), max_eq_right (by exact_mod_cast hv1)]
  set sInv := scalerInverse lower upper M (v : ℚ) with hsInv
  obtain ⟨hs1, hs2⟩ := scalerInverse_mem lower upper M v hM hlt hv1 hv2
  set q0 := pyRound sInv with hq0
  obtain ⟨hq1, hq2⟩ := pyRound_mem (x := sInv) (a := 1) (b := M) (by exact_mod_cast hs1) hs2
  rw [← hq0] at hq1 hq2
  have hproj : projectValue lower upper M (v : ℚ) = q0 := by
    simp only [projectValue]
    rw [hclamp, ← hsInv, ← hq0, inf_eq_right.mpr hq2, sup_eq_right.mpr hq1]
  set x := scalerTransform lower upper M (q0 : ℚ) with hx
  obtain ⟨hx1, hx2⟩ := scalerTransform_mem lower upper M q0 hM hlt hq1 hq2
  set t := pyInt x with ht
  obtain ⟨ht1, ht2⟩ := pyInt_mem (x := x) (a := lower) (b := upper) hx1 hx2
  rw [← ht] at ht1 ht2
  have hunproj : unprojectValue lower upper M ((projectValue lower upper M (v : ℚ)) : ℚ) = t := by
    rw [hproj]
    simp only [unprojectValue]
    rw [← hx, ← ht, inf_eq_right.mpr ht2, sup_eq_right.mpr ht1]
  rw [hunproj]
  -- |x - v| ≤ (1/2) * (upper-lower)/(M-1)
  have hround := pyRound_sub_le sInv
  have hxv : x - (v : ℚ) = ((upper : ℚ) - lower) / ((M : ℚ) - 1) * ((q0 : ℚ) - sInv) := by
    rw [hx, hsInv]
    unfold scalerTransform scalerInverse
    field_simp
    ring
  have habs1 : |x - (v : ℚ)| ≤ ((upper : ℚ) - lower) / ((M : ℚ) - 1) * (1 / 2) := by
    rw [hxv, abs_mul, abs_of_pos (div_pos hWq hMq)]
    have : |(q0 : ℚ) - sInv| ≤ 1 / 2 := hround
    exact mul_le_mul_of_nonneg_left this (le_of_lt (div_pos hWq hMq))
  have habs2 : |(t : ℚ) - x| < 1 := pyInt_sub_lt x
  have habs : |(t : ℚ) - (v : ℚ)| < 1 + ((upper : ℚ) - lower) / ((M : ℚ) - 1) * (1 / 2) := by
    calc |(t : ℚ) - (v : ℚ)| ≤ |(t : ℚ) - x| + |x - (v : ℚ)| := by
          have := abs_sub_le ((t : ℚ)) x ((v : ℚ))
          simpa using this
      _ < 1 + ((upper : ℚ) - lower) / ((M : ℚ) - 1) * (1 / 2) := by linarith
  -- clear denominators: 2 * |t - v| * (M-1) < 2*(M-1) + (upper-lower)
  have hkey : 2 * |(t : ℚ) - (v : ℚ)| * ((M : ℚ) - 1) <
      2 * ((M : ℚ) - 1) + ((upper : ℚ) - lower) := by
    have h1 : |(t : ℚ) - (v : ℚ)| * ((M : ℚ) - 1) <
        (1 + ((upper : ℚ) - lower) / ((M : ℚ) - 1) * (1 / 2)) * ((M : ℚ) - 1) :=
      mul_lt_mul_of_pos_right habs hMq
    have h2 : (1 + ((upper : ℚ) - lower) / ((M : ℚ) - 1) * (1 / 2)) * ((M : ℚ) - 1) =
        ((M : ℚ) - 1) + ((upper : ℚ) - lower) / 2 := by
      field_simp
      ring
    nlinarith [abs_nonneg ((t : ℚ) - (v : ℚ))]
  have hcast : 2 * |t - v| * (M - 1) < 2 * (M - 1) + (upper - lower) := by
    have hc : ((2 * |t - v| * (M - 1) : ℤ) : ℚ) < ((2 * (M - 1) + (upper - lower) : ℤ) : ℚ) := by
      push_cast
      linarith [hkey]
    exact_mod_cast hc
  have habs0 : 0 ≤ |t - v| := abs_nonneg _
  rcases le_or_lt (|t - v|) 1 with hn | hn
  · nlinarith
  · nlinarith

/-- A hyperparameter as `_build_projected_space` classifies it: a uniform
integer parameter (candidate for quantization) or anything else, which
passes through unchanged. -/
inductive QHp where
  | int (name : String) (lower upper : ℤ)
  | other (name : String)
deriving Repr, DecidableEq

/-- `self._knobs_scalers` after `_build_projected_space` (lines 28–50): one
fitted scaler per integer parameter whose cardinality exceeds
`max_num_values`. -/
def knobsScalers (M : ℤ) (space : List QHp) : List (String × ℤ × ℤ) :=
  space.filterMap fun hp =>
    match hp with
    | .int n lo hi => if needsQuantization lo hi M then some (n, lo, hi) else none
    | .other _ => none

/-- Dict membership `name in self._knobs_scalers`, returning the fitted
scaler's bounds. -/
def lookupScaler (scalers : List (String × ℤ × ℤ)) (n : String) : Option (ℤ × ℤ) :=
  (scalers.find? (fun s => s.1 == n)).map (·.2)

/-- The hyperparameter names of a space (`valid_dim_names`, line 101). -/
def qSpaceNames (space : List QHp) : List String :=
  space.map fun hp => match hp with | .int n _ _ => n | .other n => n

/-- Python's `name.endswith('|q')`. -/
def endsQ (s : String) : Bool :=
  s.data.reverse.take 2 == ['q', '|']

/-- Python's `name[:-2]`. -/
def dropQ (s : String) : String :=
  ⟨s.data.dropLast.dropLast⟩

/-- `QuantizationProjectionStep.project_point` (lines 126–151) over a point
dictionary in insertion order. -/
def qProjectPoint (M : ℤ) (scalers : List (String × ℤ × ℤ))
    (pt : List (String × ℚ)) : List (String × ℚ) :=
  pt.map fun nv =>
    match lookupScaler scalers nv.1 with
    | some (lo, hi) => (nv.1 ++ "|q", ((projectValue lo hi M nv.2 : ℤ) : ℚ))
    | none => nv

/-- `QuantizationProjectionStep.unproject_point` (lines 99–124). -/
def qUnprojectPoint (M : ℤ) (validNames : List String)
    (scalers : List (String × ℤ × ℤ)) (pt : List (String × ℚ)) : List (String × ℚ) :=
  pt.map fun nv =>
    if endsQ nv.1 then
      match lookupScaler scalers (dropQ nv.1) with
      | some (lo, hi) =>
          if validNames.contains (dropQ nv.1) then
            (dropQ nv.1, ((unprojectValue lo hi M nv.2 : ℤ) : ℚ))
          else nv
      | none => nv
    else nv

theorem qUnprojectPoint_singleton_hit (M : ℤ) (validNames : List String)
    (scalers : List (String × ℤ × ℤ)) (n : String) (lo hi : ℤ) (x : ℚ)
    (hn : endsQ n = true) (hl : lookupScaler scalers (dropQ n) = some (lo, hi))
    (hc : validNames.contains (dropQ n) = true) :
    qUnprojectPoint M validNames scalers [(n, x)] =
      [(dropQ n, ((unprojectValue lo hi M x : ℤ) : ℚ))] := by
  unfold qUnprojectPoint
  simp only [List.map_singleton, hn, hl, hc, if_true]

theorem qUnprojectPoint_singleton_plain (M : ℤ) (validNames : List String)
    (scalers : List (String × ℤ × ℤ)) (n : String) (x : ℚ)
    (hn : endsQ n = false) :
    qUnprojectPoint M validNames scalers [(n, x)] = [(n, x)] := by
  unfold qUnprojectPoint
  simp only [List.map_singleton, hn, Bool.false_eq_true, if_false]

theorem endsQ_append (p : String) : endsQ (p ++ "|q") = true := by
  unfold endsQ
  rw [String.data_append]
  rw [show ("|q" : String).data = ['|', 'q'] from rfl, List.reverse_append]
  rfl

theorem dropQ_append (p : String) : dropQ (p ++ "|q") = p := by
  unfold dropQ
  rw [String.data_append]
  rw [show ("|q" : String).data = ['|', 'q'] from rfl]
  rw [show p.data ++ ['|', 'q'] = (p.data ++ ['|']) ++ ['q'] by simp]
  rw [List.dropLast_concat, List.dropLast_concat]

/-- **C4.** For a fitted `QuantizationProjectionStep` and an integer
parameter `p` with bounds `[lower, upper]` and any integer value `v` in
range: when the cardinality `upper - lower + 1` exceeds `max_num_values`,
the `unproject ∘ project` round trip returns `p` with an integer value
within one quantization bucket of `v`
(`|v' - v| * (max_num_values - 1) ≤ upper - lower`); when the cardinality
is at most `max_num_values`, the parameter passes through both maps
unchanged, so the round trip is exact. -/
theorem quantization_roundtrip (p : String) (lower upper M v : ℤ) (hM : 2 ≤ M)
    (hv1 : lower ≤ v) (hv2 : v ≤ upper) (hp : endsQ p = false) :
    let scalers := knobsScalers M [QHp.int p lower upper]
    let proj := qProjectPoint M scalers [(p, (v : ℚ))]
    let unproj := qUnprojectPoint M (qSpaceNames [QHp.int p lower upper]) scalers proj
    (M < upper - lower + 1 →
      ∃ v' : ℤ, unproj = [(p, (v' : ℚ))] ∧ |v' - v| * (M - 1) ≤ upper - lower) ∧
    (upper - lower + 1 ≤ M →
      proj = [(p, (v : ℚ))] ∧ unproj = [(p, (v : ℚ))]) := by
  intro scalers proj unproj
  constructor
  · intro hq
    have hsc : scalers = [(p, lower, upper)] := by
      show knobsScalers M [QHp.int p lower upper] = _
      unfold knobsScalers needsQuantization
      simp only [List.filterMap]
      rw [if_pos (by simpa using hq)]
    have hlook : lookupScaler scalers p = some (lower, upper) := by
      rw [hsc]
      unfold lookupScaler
      simp [List.find?]
    have hproj : proj = [(p ++ "|q", ((projectValue lower upper M (v : ℚ) : ℤ) : ℚ))] := by
      show qProjectPoint M scalers [(p, (v : ℚ))] = _
      unfold qProjectPoint
      rw [List.map_singleton, hlook]
    have hlook2 : lookupScaler scalers (dropQ (p ++ "|q")) = some (lower, upper) := by
      rw [dropQ_append]; exact hlook
    have hcontains : (qSpaceNames [QHp.int p lower upper]).contains (dropQ (p ++ "|q")) = true := by
      rw [dropQ_append]
      show (p :: []).contains p = true
      simp [List.contains]
    refine ⟨unprojectValue lower upper M ((projectValue lower upper M (v : ℚ) : ℤ) : ℚ), ?_, ?_⟩
    · show qUnprojectPoint M (qSpaceNames [QHp.int p lower upper]) scalers proj = _
      rw [hproj]
      rw [qUnprojectPoint_singleton_hit M _ scalers (p ++ "|q") lower upper _
        (endsQ_append p) hlook2 hcontains]
      rw [dropQ_append]
    · exact quantization_value_bound lower upper M v hM (by omega) hv1 hv2
  · intro hq
    have hsc : scalers = [] := by
      show knobsScalers M [QHp.int p lower upper] = _
      unfold knobsScalers needsQuantization
      simp only [List.filterMap]
      rw [if_neg (by simp; omega)]
    have hlook : lookupScaler scalers p = none := by
      rw [hsc]; rfl
    have hproj : proj = [(p, (v : ℚ))] := by
      show qProjectPoint M scalers [(p, (v : ℚ))] = _
      unfold qProjectPoint
      rw [List.map_singleton, hlook]
    refine ⟨hproj, ?_⟩
    show qUnprojectPoint M (qSpaceNames [QHp.int p lower upper]) scalers proj = _
    rw [hproj]
    exact qUnprojectPoint_singleton_plain M _ scalers p _ hp

/-- Witness for C4: parameter bounds [0, 100], `max_num_values = 10`, value
37 (lossy branch: round trip lands within one bucket), and bounds [0, 5]
(exact pass-through branch). -/
theorem quantization_roundtrip_witness :
    (∃ v' : ℤ,
      qUnprojectPoint 10 (qSpaceNames [QHp.int "p" 0 100])
          (knobsScalers 10 [QHp.int "p" 0 100])
          (qProjectPoint 10 (knobsScalers 10 [QHp.int "p" 0 100]) [("p", (37 : ℚ))]) =
        [("p", (v' : ℚ))] ∧ |v' - 37| * (10 - 1) ≤ 100 - 0) ∧
    qProjectPoint 10 (knobsScalers 10 [QHp.int "q" 0 5]) [("q", (3 : ℚ))] = [("q", (3 : ℚ))] := by
  constructor
  · exact (quantization_roundtrip "p" 0 100 10 37 (by decide) (by decide) (by decide)
      (by decide)).1 (by decide)
  · exact ((quantization_roundtrip "q" 0 5 10 3 (by decide) (by decide) (by decide)
      (by decide)).2 (by decide)).1

/-! ## `dimensio/steps/projection/rembo.py` — `REMBOProjectionStep`
(claim C3)

The fitted state (`box_bound = sqrt(low_dim)` as a float, the Gaussian
matrix `A`, the active hyperparameters and the optional quantization) is
arbitrary fixed data.  The least-squares pseudo-inverse fallback
`_approximate_project` calls `np.linalg.pinv` (an external numerical
routine) and is modelled as an abstract function of the high-dimensional
dictionary.  The memoization caches are association lists in
most-recent-first order, so prepending models Python dict overwrite. -/

/-- An active hyperparameter as `unproject_point` dispatches on it. -/
inductive RHp where
  | numeric (name : String) (lower upper : ℚ)
  | categorical (name : String) (choices : List String)
deriving Repr, DecidableEq

/-- A high-dimensional configuration value. -/
inductive RVal where
  | num (q : ℚ)
  | cat (s : String)
deriving Repr, DecidableEq

def RHp.name : RHp → String
  | .numeric n _ _ => n
  | .categorical n _ => n

/-- `np.dot` of two vectors. -/
def dotQ (xs ys : List ℚ) : ℚ :=
  ((xs.zip ys).map (fun p => p.1 * p.2)).sum

/-- Lines 116–133 of `unproject_point`: clip the scaled coordinate to
[0, 1], then map it into the hyperparameter's domain (proportional
bucketing for categoricals; ConfigSpace's uniform-float `_transform`, an
external affine map, followed by clamping for numericals). -/
def rhpValue (hp : RHp) (value : ℚ) : RVal :=
  let v := max 0 (min 1 value)
  match hp with
  | .categorical _ choices =>
      let index := pyInt (v * choices.length)
      let index := max 0 (min ((choices.length : ℤ) - 1) index)
      .cat (choices.getD index.toNat "")
  | .numeric _ lo hi =>
      let x := lo + v * (hi - lo)
      .num (max lo (min hi x))

/-- Fitted state of a `REMBOProjectionStep` after `_build_projected_space`. -/
structure RemboCfg where
  lowDim : ℕ
  boxBound : ℚ
  maxNumValues : Option ℤ
  A : List (List ℚ)
  activeHps : List RHp
  approxProject : List (String × RVal) → List ℚ

/-- The pure computation of `unproject_point` on a cache miss
(lines 98–133): optional dequantization through `_q_scaler`
(`[1, max] → [-b, b]`), projection through `A`, `_scaler`
(`[-b, b] → [0, 1]`), and per-hyperparameter transformation. -/
def computeHighDim (cfg : RemboCfg) (zraw : List ℚ) : List (String × RVal) :=
  let low := match cfg.maxNumValues with
    | some M => zraw.map (fun q =>
        (q - 1) / ((M : ℚ) - 1) * (2 * cfg.boxBound) + (-cfg.boxBound))
    | none => zraw
  let highRaw := cfg.A.map (fun row => dotQ row low)
  let high01 := highRaw.map (fun v => (v + cfg.boxBound) / (2 * cfg.boxBound))
  (cfg.activeHps.zip high01).map (fun p => (p.1.name, rhpValue p.1 p.2))

/-- The two memoization caches, most recent entry first. -/
structure RemboState where
  lowToHigh : List (List ℚ × List (String × RVal))
  highToLow : List (List (String × RVal) × List ℚ)

/-- Caches of a freshly fitted step (set in `__init__`, lines 31–32). -/
def RemboState.empty : RemboState := ⟨[], []⟩

/-- Python dict lookup on an association list (most recent entry wins). -/
def alookup {α β : Type} [BEq α] (m : List (α × β)) (k : α) : Option β :=
  (m.find? (fun p => p.1 == k)).map (·.2)

/-- Insertion into a name-sorted list, modelling Python's `sorted`. -/
def insertByName (x : String × RVal) : List (String × RVal) → List (String × RVal)
  | [] => [x]
  | y :: ys => if x.1 ≤ y.1 then x :: y :: ys else y :: insertByName x ys

/-- `tuple(sorted(dict.items()))`, the high-dimensional cache key
(lines 139 and 176). -/
def sortedKey (conf : List (String × RVal)) : List (String × RVal) :=
  conf.foldr insertByName []

/-- The low-dimensional dictionary `{f'rembo_{idx}': ...}` built from a
coordinate tuple. -/
def lowDict (lowDim : ℕ) (low : List ℚ) : List (String × ℚ) :=
  (List.range lowDim).map (fun i => ("rembo_" ++ toString i, low.getD i 0))

/-- `REMBOProjectionStep.unproject_point` (lines 89–142): the input point's
`rembo_*` coordinates, in index order, are `zraw`. -/
def remboUnproject (cfg : RemboCfg) (st : RemboState) (zraw : List ℚ) :
    List (String × RVal) × RemboState :=
  match alookup st.lowToHigh zraw with
  | some conf => (conf, st)
  | none =>
      let conf := computeHighDim cfg zraw
      (conf, ⟨(zraw, conf) :: st.lowToHigh, (sortedKey conf, zraw) :: st.highToLow⟩)

/-- `REMBOProjectionStep.project_point` (lines 168–187). -/
def remboProject (cfg : RemboCfg) (st : RemboState) (pt : List (String × RVal)) :
    List (String × ℚ) × RemboState :=
  let key := sortedKey pt
  match alookup st.highToLow key with
  | some low => (lowDict cfg.lowDim low, st)
  | none =>
      let low := cfg.approxProject pt
      (lowDict cfg.lowDim low, ⟨st.lowToHigh, (key, low) :: st.highToLow⟩)

/-- **C3.** For a freshly fitted REMBO step: two `unproject_point` calls
with identical low-dimensional coordinates return identical
high-dimensional dictionaries, and a subsequent `project_point` on that
exact dictionary is served from the cache, returning exactly the original
low-dimensional coordinates. -/
theorem rembo_cache_roundtrip (cfg : RemboCfg) (z : List ℚ) :
    let r1 := remboUnproject cfg RemboState.empty z
    let r2 := remboUnproject cfg r1.2 z
    r2.1 = r1.1 ∧
    (remboProject cfg r2.2 r1.1).1 = lowDict cfg.lowDim z := by
  intro r1 r2
  have h1 : r1 = (computeHighDim cfg z,
      ⟨[(z, computeHighDim cfg z)], [(sortedKey (computeHighDim cfg z), z)]⟩) := by
    show remboUnproject cfg RemboState.empty z = _
    unfold remboUnproject
    rfl
  have h2 : r2 = (computeHighDim cfg z, r1.2) := by
    show remboUnproject cfg r1.2 z = _
    rw [h1]
    unfold remboUnproject
    simp only [alookup, List.find?, beq_self_eq_true]
    rfl
  constructor
  · rw [h2, h1]
  · rw [h2, h1]
    show (remboProject cfg
      ⟨[(z, computeHighDim cfg z)], [(sortedKey (computeHighDim cfg z), z)]⟩
      (computeHighDim cfg z)).1 = _
    unfold remboProject
    simp only [alookup, List.find?, beq_self_eq_true]
    rfl

/-! ## `steps/range/boundary.py` + `dimensio/utils` — `BoundaryRangeStep`
(claims C5 and C7) and `steps/dimension/shap.py` — `SHAPDimensionStep`
(claims C7 and C9)

A parameter space is a list of hyperparameters; numeric ones carry bounds,
an integer flag, an optional quantization step `q` and a default.
Histories are lists of `(configuration, objective)` observations; a
configuration is an association list of numeric values.  `numpy.std`'s
square root is the rational approximation `ratSqrt`; `np.argsort` is
modelled by a deterministic (insertion) sort. -/

/-- A numeric (bounded) hyperparameter. -/
structure NumHp where
  name : String
  lower : ℚ
  upper : ℚ
  isInt : Bool
  q : Option ℚ
  default_value : ℚ
deriving Repr, DecidableEq

/-- A hyperparameter: numeric-bounded or categorical. -/
inductive BHp where
  | num (h : NumHp)
  | cat (name : String) (choices : List String)
deriving Repr, DecidableEq

def BHp.name : BHp → String
  | .num h => h.name
  | .cat n _ => n

/-- `extract_numeric_hyperparameters`: names of hyperparameters having
`lower`/`upper` attributes, in space order. -/
def numericNames (space : List BHp) : List String :=
  space.filterMap fun hp =>
    match hp with
    | .num h => some h.name
    | .cat _ _ => none

/-- `space.get_hyperparameter(name)` restricted to numeric parameters. -/
def findNum (space : List BHp) (n : String) : Option NumHp :=
  match space.find? (fun hp => hp.name == n) with
  | some (.num h) => some h
  | _ => none

/-- A configuration: parameter name to numeric value. -/
abbrev BConfig := List (String × ℚ)

/-- `config.get(param_name)` with fallback to the parameter's default
(`extract_numeric_values_from_configs`, lines 215–225 of utils). -/
def valueOf (cfg : BConfig) (h : NumHp) : ℚ :=
  match cfg.find? (fun p => p.1 == h.name) with
  | some p => p.2
  | none => h.default_value

/-- One normalized matrix entry of `extract_numeric_values_from_configs`
(normalization skipped when the range is not positive). -/
def normValue (h : NumHp) (cfg : BConfig) : ℚ :=
  if 0 < h.upper - h.lower then (valueOf cfg h - h.lower) / (h.upper - h.lower)
  else valueOf cfg h

/-- Stable insertion by objective value, modelling `np.argsort` on the
objective array (row order for ties is a modelling choice). -/
def insertByObj (x : BConfig × ℚ) : List (BConfig × ℚ) → List (BConfig × ℚ)
  | [] => [x]
  | y :: ys => if x.2 ≤ y.2 then x :: y :: ys else y :: insertByObj x ys

def sortByObj (l : List (BConfig × ℚ)) : List (BConfig × ℚ) :=
  l.foldr insertByObj []

/-- Top-fraction row selection of `extract_top_samples_from_history`
(lines 172–184 of utils) for one history. -/
def topConfigs (top_ratio : ℚ) (hist : List (BConfig × ℚ)) : List BConfig :=
  if hist.isEmpty then []
  else if top_ratio < 1 then
    let top_n := max 1 (pyInt ((hist.length : ℚ) * top_ratio)).toNat
    ((sortByObj hist).take top_n).map (·.1)
  else hist.map (·.1)

/-- The stacked selected rows over all histories (`np.vstack(all_x)`). -/
def allTopConfigs (top_ratio : ℚ) (histories : List (List (BConfig × ℚ))) :
    List BConfig :=
  (histories.map (topConfigs top_ratio)).flatten

/-- `np.min` of a nonempty array. -/
def listMin : List ℚ → ℚ
  | [] => 0
  | x :: xs => xs.foldl min x

/-- `np.max` of a nonempty array. -/
def listMax : List ℚ → ℚ
  | [] => 0
  | x :: xs => xs.foldl max x

/-- `BoundaryRangeStep._clamp_range_bounds` (lines 20–35). -/
def clampRangeBounds (min_val max_val : ℚ) (param_values : List ℚ)
    (lower upper : ℚ) : ℚ × ℚ :=
  let p := if max_val < min_val then (listMin param_values, listMax param_values)
           else (min_val, max_val)
  (max p.1 lower, min p.2 upper)

/-- The per-parameter body of `_compute_simple_ranges` (lines 90–112). -/
def computeParamRange (sigma : ℚ) (h : NumHp) (configs : List BConfig) : ℚ × ℚ :=
  let values_norm := configs.map (normValue h)
  let mean := values_norm.sum / values_norm.length
  let std := ratSqrt ((values_norm.map (fun x => (x - mean) ^ 2)).sum / values_norm.length)
  let min_val_norm := max (listMin values_norm) (mean - sigma * std)
  let max_val_norm := min (listMax values_norm) (mean + sigma * std)
  let range_size := h.upper - h.lower
  let min_val := h.lower + min_val_norm * range_size
  let max_val := h.lower + max_val_norm * range_size
  let values_original := values_norm.map (fun x => h.lower + x * range_size)
  clampRangeBounds min_val max_val values_original h.lower h.upper

/-- `_compute_simple_ranges` (lines 75–114): the compressed-ranges dict. -/
def computeSimpleRanges (top_ratio sigma : ℚ) (histories : List (List (BConfig × ℚ)))
    (numNames : List String) (space : List BHp) : List (String × ℚ × ℚ) :=
  let allX := allTopConfigs top_ratio histories
  if allX.isEmpty then []
  else numNames.filterMap fun n =>
    (findNum space n).map (fun h => (n, computeParamRange sigma h allX))

/-- `create_space_from_ranges` (utils lines 52–126) on one numeric
hyperparameter: invalid-range fix, quantization-grid alignment, and
construction of the replacement hyperparameter (with `int(...)` casts for
integer parameters). -/
def createHpFromRange (h : NumHp) (mn mx : ℚ) : NumHp :=
  let p :=
    if mx ≤ mn then
      if mx < h.upper then
        let m2 := if h.isInt then mn + 1 else mx + (h.upper - h.lower) * (1/100)
        (mn, min m2 h.upper)
      else if h.lower < mn then
        let m1 := if h.isInt then mx - 1 else mx - (h.upper - h.lower) * (1/100)
        (max m1 h.lower, mx)
      else (h.lower, h.upper)
    else (mn, mx)
  let p2 :=
    match h.q with
    | some q =>
        let minq := (⌊p.1 / q⌋ : ℚ) * q
        let maxq := (⌈p.2 / q⌉ : ℚ) * q
        let range_size := maxq - minq
        if range_size < q then (minq, minq + q)
        else (minq, minq + ((pyRound (range_size / q) : ℤ) : ℚ) * q)
    | none => p
  if h.isInt then
    { h with
      lower := ((pyInt p2.1 : ℤ) : ℚ)
      upper := ((pyInt p2.2 : ℤ) : ℚ)
      default_value := ((pyInt ((p2.1 + p2.2) / 2) : ℤ) : ℚ) }
  else
    { h with lower := p2.1, upper := p2.2, default_value := (p2.1 + p2.2) / 2 }

/-- `create_space_from_ranges`: replace each ranged numeric parameter,
leave everything else untouched. -/
def createSpaceFromRanges (space : List BHp) (ranges : List (String × ℚ × ℚ)) :
    List BHp :=
  space.map fun hp =>
    match hp with
    | .num h =>
        match ranges.find? (fun r => r.1 == h.name) with
        | some r => .num (createHpFromRange h r.2.1 r.2.2)
        | none => hp
    | .cat _ _ => hp

/-- `RangeCompressionStep.compress` specialised to `BoundaryRangeStep`
(`base.py` lines 16–30 and `boundary.py` lines 53–73). -/
def boundaryCompress (method : String) (top_ratio sigma : ℚ) (space : List BHp)
    (histories : List (List (BConfig × ℚ))) : List BHp :=
  if method == "none" then space
  else if histories.isEmpty then space
  else if (numericNames space).isEmpty then space
  else createSpaceFromRanges space
    (computeSimpleRanges top_ratio sigma histories (numericNames space) space)

/-- Stable insertion by importance score, modelling `np.argsort` over the
importance array. -/
def insertByScore (x : ℕ × ℚ) : List (ℕ × ℚ) → List (ℕ × ℚ)
  | [] => [x]
  | y :: ys => if x.2 ≤ y.2 then x :: y :: ys else y :: insertByScore x ys

/-- `np.argsort(importances)`: indices in ascending score order. -/
def argsortIdx (l : List ℚ) : List ℕ :=
  (l.enum.foldr insertByScore []).map Prod.fst

/-- `all_param_names.index(name)`. -/
def indexOfName (space : List BHp) (n : String) : ℕ :=
  (space.map (·.name)).indexOf n

/-- `SHAPDimensionStep._select_parameters` (lines 34–69).  `imps` is the
result of the external SHAP importance oracle
(`SHAPImportanceCalculator.calculate_importances`): `none` models the
`None` it returns when no importances could be computed; the accompanying
`param_names` are the space's numeric names. -/
def shapSelectParameters (topk : ℤ) (space : List BHp)
    (histories : List (List (BConfig × ℚ))) (imps : Option (List ℚ)) : List ℕ :=
  if topk ≤ 0 then List.range space.length
  else if histories.isEmpty then List.range space.length
  else
    match imps with
    | none => List.range space.length
    | some importances =>
        if importances.isEmpty then List.range space.length
        else
          let param_names := numericNames space
          let top_k := min topk.toNat param_names.length
          if top_k = 0 then List.range space.length
          else
            let selected_numeric_indices := (argsortIdx importances).take top_k
            let selected_param_names :=
              selected_numeric_indices.map (fun i => param_names.getD i "")
            selected_param_names.map (indexOfName space)

/-- `DimensionSelectionStep.compress` driving `SHAPDimensionStep`
(`base.py` lines 19–36, `shap.py` lines 29–32). -/
def shapCompress (strategy : String) (topk : ℤ) (space : List BHp)
    (histories : List (List (BConfig × ℚ))) (imps : Option (List ℚ)) : List BHp :=
  if strategy == "none" then space
  else
    let selected := shapSelectParameters topk space histories imps
    if selected.isEmpty then space
    else selected.filterMap (fun i => space[i]?)

theorem range_filterMap_getElem {α : Type} (l : List α) :
    (List.range l.length).filterMap (fun i => l[i]?) = l := by
  induction l with
  | nil => rfl
  | cons a t ih =>
    rw [List.length_cons, List.range_succ_eq_map, List.filterMap_cons]
    simp only [List.getElem?_cons_zero, List.filterMap_map]
    have hf : ((fun i => (a :: t)[i]?) ∘ (fun i => i + 1)) = (fun i => t[i]?) := by
      funext i
      simp [List.getElem?_cons_succ]
    rw [hf, ih]

theorem shapSelect_no_history (space : List BHp) (topk : ℤ) (imps : Option (List ℚ)) :
    shapSelectParameters topk space [] imps = List.range space.length := by
  unfold shapSelectParameters
  by_cases h : topk ≤ 0
  · rw [if_pos h]
  · rw [if_neg h]
    rfl

/-- **C7.** With empty (or missing) history, `SHAPDimensionStep.compress`
keeps all parameters unchanged and `BoundaryRangeStep.compress` returns
the input space with identical bounds; neither raises (both are total
functions of the embedded state). -/
theorem no_history_noop (space : List BHp) (topk : ℤ) (imps : Option (List ℚ))
    (top_ratio sigma : ℚ) :
    shapCompress "shap" topk space [] imps = space ∧
    boundaryCompress "boundary" top_ratio sigma space [] = space := by
  constructor
  · unfold shapCompress
    rw [if_neg (by decide)]
    rw [shapSelect_no_history]
    cases space with
    | nil => rfl
    | cons a t =>
      rw [if_neg (by simp)]
      exact range_filterMap_getElem (a :: t)
  · unfold boundaryCompress
    rw [if_neg (by decide)]
    rfl

/-- Witness for C7 on a two-parameter space. -/
theorem no_history_noop_witness :
    shapCompress "shap" 3 [BHp.num ⟨"a", 0, 1, false, none, 0⟩, BHp.cat "c" ["x"]]
        [] (some [-1]) =
      [BHp.num ⟨"a", 0, 1, false, none, 0⟩, BHp.cat "c" ["x"]] ∧
    boundaryCompress "boundary" (4/5) 2
        [BHp.num ⟨"a", 0, 1, false, none, 0⟩, BHp.cat "c" ["x"]] [] =
      [BHp.num ⟨"a", 0, 1, false, none, 0⟩, BHp.cat "c" ["x"]] :=
  no_history_noop [BHp.num ⟨"a", 0, 1, false, none, 0⟩, BHp.cat "c" ["x"]] 3
    (some [-1]) (4/5) 2

theorem foldl_min_le_init (l : List ℚ) : ∀ acc : ℚ, l.foldl min acc ≤ acc := by
  induction l with
  | nil => intro acc; exact le_refl _
  | cons y ys ih => intro acc; exact le_trans (ih (min acc y)) (min_le_left _ _)

theorem foldl_min_le_mem (l : List ℚ) : ∀ acc x, x ∈ l → l.foldl min acc ≤ x := by
  induction l with
  | nil => intro acc x hx; exact absurd hx (List.not_mem_nil x)
  | cons y ys ih =>
    intro acc x hx
    rcases List.mem_cons.mp hx with hh | hh
    · subst hh; exact le_trans (foldl_min_le_init ys _) (min_le_right _ _)
    · exact ih _ x hh

theorem le_foldl_min (l : List ℚ) : ∀ acc c, c ≤ acc → (∀ x ∈ l, c ≤ x) →
    c ≤ l.foldl min acc := by
  induction l with
  | nil => intro acc c hc _; exact hc
  | cons y ys ih =>
    intro acc c hc hl
    exact ih _ c (le_min hc (hl y (List.mem_cons_self y ys)))
      (fun x hx => hl x (List.mem_cons_of_mem y hx))

theorem init_le_foldl_max (l : List ℚ) : ∀ acc : ℚ, acc ≤ l.foldl max acc := by
  induction l with
  | nil => intro acc; exact le_refl _
  | cons y ys ih => intro acc; exact le_trans (le_max_left _ _) (ih (max acc y))

theorem mem_le_foldl_max (l : List ℚ) : ∀ acc x, x ∈ l → x ≤ l.foldl max acc := by
  induction l with
  | nil => intro acc x hx; exact absurd hx (List.not_mem_nil x)
  | cons y ys ih =>
    intro acc x hx
    rcases List.mem_cons.mp hx with hh | hh
    · subst hh; exact le_trans (le_max_right _ _) (init_le_foldl_max ys _)
    · exact ih _ x hh

theorem foldl_max_le (l : List ℚ) : ∀ acc c, acc ≤ c → (∀ x ∈ l, x ≤ c) →
    l.foldl max acc ≤ c := by
  induction l with
  | nil => intro acc c hc _; exact hc
  | cons y ys ih =>
    intro acc c hc hl
    exact ih _ c (max_le hc (hl y (List.mem_cons_self y ys)))
      (fun x hx => hl x (List.mem_cons_of_mem y hx))

theorem listMin_le {l : List ℚ} {x : ℚ} (hx : x ∈ l) : listMin l ≤ x := by
  cases l with
  | nil => cases hx
  | cons a t =>
    rcases List.mem_cons.mp hx with hh | hh
    · rw [hh]; exact foldl_min_le_init t a
    · exact foldl_min_le_mem t a x hh

theorem le_listMax {l : List ℚ} {x : ℚ} (hx : x ∈ l) : x ≤ listMax l := by
  cases l with
  | nil => cases hx
  | cons a t =>
    rcases List.mem_cons.mp hx with hh | hh
    · rw [hh]; exact init_le_foldl_max t a
    · exact mem_le_foldl_max t a x hh

theorem le_listMin {l : List ℚ} {c : ℚ} (hne : l ≠ []) (h : ∀ x ∈ l, c ≤ x) :
    c ≤ listMin l := by
  cases l with
  | nil => exact absurd rfl hne
  | cons a t =>
    exact le_foldl_min t a c (h a (List.mem_cons_self a t))
      (fun x hx => h x (List.mem_cons_of_mem a hx))

theorem listMax_le {l : List ℚ} {c : ℚ} (hne : l ≠ []) (h : ∀ x ∈ l, x ≤ c) :
    listMax l ≤ c := by
  cases l with
  | nil => exact absurd rfl hne
  | cons a t =>
    exact foldl_max_le t a c (h a (List.mem_cons_self a t))
      (fun x hx => h x (List.mem_cons_of_mem a hx))

theorem card_mul_le_sum (l : List ℚ) (c : ℚ) (h : ∀ x ∈ l, c ≤ x) :
    (l.length : ℚ) * c ≤ l.sum := by
  induction l with
  | nil => simp
  | cons a t ih =>
    rw [List.sum_cons, List.length_cons]
    push_cast
    have h1 : c ≤ a := h a (List.mem_cons_self a t)
    have h2 := ih (fun x hx => h x (List.mem_cons_of_mem a hx))
    nlinarith

theorem sum_le_card_mul (l : List ℚ) (c : ℚ) (h : ∀ x ∈ l, x ≤ c) :
    l.sum ≤ (l.length : ℚ) * c := by
  induction l with
  | nil => simp
  | cons a t ih =>
    rw [List.sum_cons, List.length_cons]
    push_cast
    have h1 : a ≤ c := h a (List.mem_cons_self a t)
    have h2 := ih (fun x hx => h x (List.mem_cons_of_mem a hx))
    nlinarith

theorem listMin_le_mean {l : List ℚ} (hne : l ≠ []) : listMin l ≤ l.sum / l.length := by
  have hlen : (0 : ℚ) < l.length := by
    have := List.length_pos.mpr hne
    exact_mod_cast this
  rw [le_div_iff hlen]
  have := card_mul_le_sum l (listMin l) (fun x hx => listMin_le hx)
  linarith

theorem mean_le_listMax {l : List ℚ} (hne : l ≠ []) : l.sum / l.length ≤ listMax l := by
  have hlen : (0 : ℚ) < l.length := by
    have := List.length_pos.mpr hne
    exact_mod_cast this
  rw [div_le_iff hlen]
  have := sum_le_card_mul l (listMax l) (fun x hx => le_listMax hx)
  linarith

/-- Bounds established by `_compute_simple_ranges` for one parameter: the
computed interval is contained in `[lower, upper]` and is not inverted,
provided the observed values respect the parameter's bounds (guaranteed by
the external `Configuration` type) and `sigma ≥ 0`. -/
theorem computeParamRange_spec (sigma : ℚ) (h : NumHp) (configs : List BConfig)
    (hσ : 0 ≤ sigma) (hne : configs ≠ []) (hlohi : h.lower ≤ h.upper)
    (hin : ∀ c ∈ configs, h.lower ≤ valueOf c h ∧ valueOf c h ≤ h.upper) :
    h.lower ≤ (computeParamRange sigma h configs).1 ∧
    (computeParamRange sigma h configs).1 ≤ (computeParamRange sigma h configs).2 ∧
    (computeParamRange sigma h configs).2 ≤ h.upper := by
  have hvne : configs.map (normValue h) ≠ [] := by
    intro h0
    exact hne (List.map_eq_nil.mp h0)
  set vn := configs.map (normValue h) with hvn
  set mean := vn.sum / (vn.length : ℚ) with hmean
  set std := ratSqrt ((vn.map (fun x => (x - mean) ^ 2)).sum / (vn.length : ℚ)) with hstd
  have hstd0 : 0 ≤ std := ratSqrt_nonneg _
  have hm1 : listMin vn ≤ mean := listMin_le_mean hvne
  have hm2 : mean ≤ listMax vn := mean_le_listMax hvne
  set mvA := max (listMin vn) (mean - sigma * std) with hmvA
  set MvA := min (listMax vn) (mean + sigma * std) with hMvA
  have hmle : mvA ≤ mean := max_le hm1 (by nlinarith)
  have hMge : mean ≤ MvA := le_min hm2 (by nlinarith)
  have hmM : mvA ≤ MvA := le_trans hmle hMge
  set w := h.upper - h.lower with hw
  set mn := h.lower + mvA * w with hmn
  set mx := h.lower + MvA * w with hmx
  have hcpr : computeParamRange sigma h configs =
      clampRangeBounds mn mx (vn.map (fun x => h.lower + x * w)) h.lower h.upper := rfl
  have hwnn : 0 ≤ w := by rw [hw]; linarith
  have hmnmx : mn ≤ mx := by
    rw [hmn, hmx]
    nlinarith
  -- lower ≤ mx and mn ≤ upper, by cases on whether the range is positive
  have hkey : h.lower ≤ mx ∧ mn ≤ h.upper := by
    by_cases hwpos : 0 < w
    · have hb : ∀ x ∈ vn, 0 ≤ x ∧ x ≤ 1 := by
        intro x hx
        obtain ⟨c, hc, hcx⟩ := List.mem_map.mp hx
        have hvc := hin c hc
        have hnx : x = (valueOf c h - h.lower) / w := by
          rw [← hcx]
          unfold normValue
          rw [if_pos (by rw [← hw]; exact hwpos)]
        rw [hnx]
        constructor
        · apply div_nonneg _ (le_of_lt hwpos)
          linarith [hvc.1]
        · rw [div_le_one hwpos, hw]
          linarith [hvc.2]
      have hmin0 : 0 ≤ listMin vn := le_listMin hvne (fun x hx => (hb x hx).1)
      have hmax1 : listMax vn ≤ 1 := listMax_le hvne (fun x hx => (hb x hx).2)
      constructor
      · rw [hmx]
        nlinarith
      · rw [hmn, hw]
        nlinarith
    · have hw0 : w = 0 := le_antisymm (not_lt.mp hwpos) hwnn
      constructor
      · rw [hmx, hw0]
        linarith
      · rw [hmn, hw0]
        linarith
  rw [hcpr]
  unfold clampRangeBounds
  rw [if_neg (not_lt.mpr hmnmx)]
  refine ⟨le_max_right _ _, ?_, min_le_right _ _⟩
  exact max_le (le_min hmnmx hkey.2) (le_min hkey.1 hlohi)

theorem pyInt_ge {x : ℚ} {a : ℤ} (h : (a : ℚ) ≤ x) : a ≤ pyInt x := by
  unfold pyInt
  by_cases h0 : 0 ≤ x
  · rw [if_pos h0]; exact Int.le_floor.mpr h
  · rw [if_neg h0]
    have := h.trans (Int.le_ceil x)
    exact_mod_cast this

theorem pyInt_le {x : ℚ} {b : ℤ} (h : x ≤ (b : ℚ)) : pyInt x ≤ b := by
  unfold pyInt
  by_cases h0 : 0 ≤ x
  · rw [if_pos h0]
    have := (Int.floor_le x).trans h
    exact_mod_cast this
  · rw [if_neg h0]; exact Int.ceil_le.mpr h

/-- Containment and non-inversion of the hyperparameter built by
`create_space_from_ranges` from an in-bounds (possibly degenerate) range,
for parameters without a quantization step. -/
theorem createHpFromRange_spec (h : NumHp) (mn mx : ℚ)
    (hq : h.q = none) (hlohi : h.lower ≤ h.upper)
    (h1 : h.lower ≤ mn) (h2 : mn ≤ mx) (h3 : mx ≤ h.upper)
    (hint : h.isInt = true → (∃ a : ℤ, h.lower = (a : ℚ)) ∧ ∃ b : ℤ, h.upper = (b : ℚ)) :
    let h' := createHpFromRange h mn mx
    h'.name = h.name ∧ h.lower ≤ h'.lower ∧ h'.lower ≤ h'.upper ∧ h'.upper ≤ h.upper := by
  intro h'
  -- the pair after the invalid-range fix is in-bounds and non-inverted
  have hfix : ∀ p : ℚ × ℚ,
      p = (if mx ≤ mn then
        if mx < h.upper then
          (mn, min (if h.isInt then mn + 1 else mx + (h.upper - h.lower) * (1/100)) h.upper)
        else if h.lower < mn then
          (max (if h.isInt then mx - 1 else mx - (h.upper - h.lower) * (1/100)) h.lower, mx)
        else (h.lower, h.upper)
      else (mn, mx)) →
      h.lower ≤ p.1 ∧ p.1 ≤ p.2 ∧ p.2 ≤ h.upper := by
    intro p hp
    by_cases hc : mx ≤ mn
    · have hceq : mn = mx := le_antisymm h2 hc
      rw [if_pos hc] at hp
      by_cases hc2 : mx < h.upper
      · rw [if_pos hc2] at hp
        subst hp
        refine ⟨h1, ?_, min_le_right _ _⟩
        apply le_min
        · by_cases hi : h.isInt
          · rw [if_pos hi]; linarith
          · rw [if_neg hi]; nlinarith
        · linarith
      · rw [if_neg hc2] at hp
        by_cases hc3 : h.lower < mn
        · rw [if_pos hc3] at hp
          subst hp
          refine ⟨le_max_right _ _, ?_, h3⟩
          apply max_le
          · by_cases hi : h.isInt
            · rw [if_pos hi]; linarith
            · rw [if_neg hi]; nlinarith
          · linarith [not_lt.mp hc2]
        · rw [if_neg hc3] at hp
          subst hp
          exact ⟨le_refl _, hlohi, le_refl _⟩
    · rw [if_neg hc] at hp
      subst hp
      exact ⟨h1, h2, h3⟩
  have hp := hfix _ rfl
  set p : ℚ × ℚ := (if mx ≤ mn then
        if mx < h.upper then
          (mn, min (if h.isInt then mn + 1 else mx + (h.upper - h.lower) * (1/100)) h.upper)
        else if h.lower < mn then
          (max (if h.isInt then mx - 1 else mx - (h.upper - h.lower) * (1/100)) h.lower, mx)
        else (h.lower, h.upper)
      else (mn, mx)) with hpdef
  have hhp : h' = (if h.isInt then
      { h with
        lower := ((pyInt p.1 : ℤ) : ℚ)
        upper := ((pyInt p.2 : ℤ) : ℚ)
        default_value := ((pyInt ((p.1 + p.2) / 2) : ℤ) : ℚ) }
    else
      { h with lower := p.1, upper := p.2, default_value := (p.1 + p.2) / 2 }) := by
    show createHpFromRange h mn mx = _
    unfold createHpFromRange
    rw [hq]
  by_cases hi : h.isInt
  · rw [if_pos hi] at hhp
    obtain ⟨⟨a, ha⟩, ⟨b, hb⟩⟩ := hint hi
    have hlo : a ≤ pyInt p.1 := pyInt_ge (by rw [← ha]; exact hp.1)
    have hup : pyInt p.2 ≤ b := pyInt_le (by rw [← hb]; exact hp.2.2)
    have hmono : pyInt p.1 ≤ pyInt p.2 := pyInt_mono hp.2.1
    refine ⟨by rw [hhp], ?_, ?_, ?_⟩
    · rw [hhp, ha]
      show (a : ℚ) ≤ ((pyInt p.1 : ℤ) : ℚ)
      exact_mod_cast hlo
    · rw [hhp]
      show ((pyInt p.1 : ℤ) : ℚ) ≤ ((pyInt p.2 : ℤ) : ℚ)
      exact_mod_cast hmono
    · rw [hhp, hb]
      show ((pyInt p.2 : ℤ) : ℚ) ≤ (b : ℚ)
      exact_mod_cast hup
  · rw [if_neg hi] at hhp
    exact ⟨by rw [hhp], by rw [hhp]; exact hp.1, by rw [hhp]; exact hp.2.1,
      by rw [hhp]; exact hp.2.2⟩

theorem insertByObj_perm (x : BConfig × ℚ) (l : List (BConfig × ℚ)) :
    (insertByObj x l).Perm (x :: l) := by
  induction l with
  | nil => exact List.Perm.refl _
  | cons y ys ih =>
    unfold insertByObj
    by_cases h : x.2 ≤ y.2
    · rw [if_pos h]
    · rw [if_neg h]
      exact (ih.cons y).trans (List.Perm.swap x y ys)

theorem sortByObj_perm (l : List (BConfig × ℚ)) : (sortByObj l).Perm l := by
  induction l with
  | nil => exact List.Perm.refl _
  | cons x xs ih => exact (insertByObj_perm x _).trans (ih.cons x)

theorem mem_topConfigs {tr : ℚ} {hl : List (BConfig × ℚ)} {c : BConfig}
    (hc : c ∈ topConfigs tr hl) : ∃ y, (c, y) ∈ hl := by
  unfold topConfigs at hc
  by_cases h0 : hl.isEmpty
  · rw [if_pos h0] at hc
    cases hc
  · rw [if_neg h0] at hc
    by_cases h1 : tr < 1
    · rw [if_pos h1] at hc
      obtain ⟨p, hp, hpc⟩ := List.mem_map.mp hc
      have hp2 : p ∈ sortByObj hl := List.mem_of_mem_take hp
      have hp3 : p ∈ hl := (sortByObj_perm hl).mem_iff.mp hp2
      exact ⟨p.2, by rw [← hpc]; exact hp3⟩
    · rw [if_neg h1] at hc
      obtain ⟨p, hp, hpc⟩ := List.mem_map.mp hc
      exact ⟨p.2, by rw [← hpc]; exact hp⟩

theorem mem_allTopConfigs {tr : ℚ} {hists : List (List (BConfig × ℚ))} {c : BConfig}
    (hc : c ∈ allTopConfigs tr hists) : ∃ hl ∈ hists, ∃ y, (c, y) ∈ hl := by
  unfold allTopConfigs at hc
  obtain ⟨l, hlmem, hcl⟩ := List.mem_flatten.mp hc
  obtain ⟨hl, hhl, hleq⟩ := List.mem_map.mp hlmem
  refine ⟨hl, hhl, ?_⟩
  rw [← hleq] at hcl
  exact mem_topConfigs hcl

theorem createSpaceFromRanges_nil (space : List BHp) :
    createSpaceFromRanges space [] = space := by
  induction space with
  | nil => rfl
  | cons hp t ih =>
    unfold createSpaceFromRanges at ih ⊢
    rw [List.map_cons, ih]
    congr 1
    cases hp with
    | num h => rfl
    | cat n ch => rfl

theorem findNum_of_getElem (space : List BHp) (h : NumHp)
    (hnodup : (space.map BHp.name).Nodup) (hmem : BHp.num h ∈ space) :
    findNum space h.name = some h := by
  unfold findNum
  cases hf : space.find? (fun hp => hp.name == h.name) with
  | none =>
    exfalso
    have := List.find?_eq_none.mp hf (BHp.num h) hmem
    simp [BHp.name] at this
  | some hp' =>
    have hp'mem := List.mem_of_find?_eq_some hf
    have hp'pred := List.find?_some hf
    have hname : hp'.name = h.name := by simpa using hp'pred
    have heq : hp' = BHp.num h :=
      List.inj_on_of_nodup_map hnodup hp'mem hmem (by rw [hname]; rfl)
    rw [heq]

theorem ranges_find_spec (top_ratio sigma : ℚ)
    (histories : List (List (BConfig × ℚ))) (space : List BHp) (h : NumHp)
    (hfind : findNum space h.name = some h) (r : String × ℚ × ℚ)
    (hr : (computeSimpleRanges top_ratio sigma histories (numericNames space) space).find?
        (fun r => r.1 == h.name) = some r) :
    r = (h.name, computeParamRange sigma h (allTopConfigs top_ratio histories)) := by
  have hrmem := List.mem_of_find?_eq_some hr
  have hrpred := List.find?_some hr
  have hrname : r.1 = h.name := by simpa using hrpred
  unfold computeSimpleRanges at hrmem
  by_cases hx : (allTopConfigs top_ratio histories).isEmpty
  · rw [if_pos hx] at hrmem
    cases hrmem
  · rw [if_neg hx] at hrmem
    obtain ⟨n, _, hmap⟩ := List.mem_filterMap.mp hrmem
    obtain ⟨hn, hfn, hrn⟩ := Option.map_eq_some'.mp hmap
    have hn1 : n = h.name := by rw [← hrn] at hrname; exact hrname
    rw [hn1] at hfn
    rw [hfind] at hfn
    have hhn : hn = h := by injection hfn.symm
    rw [← hrn, hn1, hhn]

/-- **C5 (amended).** `BoundaryRangeStep` never widens the range of a
numeric parameter that has no quantization step `q`: the produced bounds
stay inside the original bounds, the interval is never inverted, and the
compressed width is at most the original width.  (With a quantization step
the bounds are aligned outward to the `q` grid and may leave the original
interval — see the counterexample.)  Observed values are in-bounds, as the
external `Configuration` type guarantees. -/
theorem boundary_range_no_widen (top_ratio sigma : ℚ) (hσ : 0 ≤ sigma)
    (space : List BHp) (histories : List (List (BConfig × ℚ)))
    (hnodup : (space.map BHp.name).Nodup)
    (hin : ∀ h : NumHp, BHp.num h ∈ space → ∀ hl ∈ histories, ∀ p ∈ hl,
      h.lower ≤ valueOf p.1 h ∧ valueOf p.1 h ≤ h.upper) :
    let out := boundaryCompress "boundary" top_ratio sigma space histories
    out.length = space.length ∧
    ∀ (i : ℕ) (h : NumHp), space[i]? = some (BHp.num h) → h.q = none →
      h.lower ≤ h.upper →
      (h.isInt = true → (∃ a : ℤ, h.lower = (a : ℚ)) ∧ (∃ b : ℤ, h.upper = (b : ℚ))) →
      ∃ h' : NumHp, out[i]? = some (BHp.num h') ∧ h'.name = h.name ∧
        h.lower ≤ h'.lower ∧ h'.lower ≤ h'.upper ∧ h'.upper ≤ h.upper ∧
        h'.upper - h'.lower ≤ h.upper - h.lower := by
  intro out
  have heasy : out = space →
      (out.length = space.length ∧
      ∀ (i : ℕ) (h : NumHp), space[i]? = some (BHp.num h) → h.q = none →
        h.lower ≤ h.upper →
        (h.isInt = true → (∃ a : ℤ, h.lower = (a : ℚ)) ∧ (∃ b : ℤ, h.upper = (b : ℚ))) →
        ∃ h' : NumHp, out[i]? = some (BHp.num h') ∧ h'.name = h.name ∧
          h.lower ≤ h'.lower ∧ h'.lower ≤ h'.upper ∧ h'.upper ≤ h.upper ∧
          h'.upper - h'.lower ≤ h.upper - h.lower) := by
    intro he
    rw [he]
    refine ⟨rfl, ?_⟩
    intro i h hi _ hlh _
    exact ⟨h, hi, rfl, le_refl _, hlh, le_refl _, le_refl _⟩
  by_cases hh : histories.isEmpty
  · exact heasy (by
      show boundaryCompress "boundary" top_ratio sigma space histories = space
      unfold boundaryCompress
      rw [if_neg (by decide), if_pos hh])
  · by_cases hnn : (numericNames space).isEmpty
    · exact heasy (by
        show boundaryCompress "boundary" top_ratio sigma space histories = space
        unfold boundaryCompress
        rw [if_neg (by decide), if_neg hh, if_pos hnn])
    · have hout : out = createSpaceFromRanges space
          (computeSimpleRanges top_ratio sigma histories (numericNames space) space) := by
        show boundaryCompress "boundary" top_ratio sigma space histories = _
        unfold boundaryCompress
        rw [if_neg (by decide), if_neg hh, if_neg hnn]
      by_cases hx : (allTopConfigs top_ratio histories).isEmpty
      · have hranges : computeSimpleRanges top_ratio sigma histories
            (numericNames space) space = [] := by
          unfold computeSimpleRanges
          dsimp only
          rw [if_pos hx]
        exact heasy (by rw [hout, hranges, createSpaceFromRanges_nil])
      · constructor
        · rw [hout]
          unfold createSpaceFromRanges
          exact List.length_map _ _
        · intro i h hi hq hlh hint
          have hmem : BHp.num h ∈ space := List.getElem?_mem hi
          have houti : out[i]? = Option.map (fun hp =>
              match hp with
              | BHp.num h =>
                  match (computeSimpleRanges top_ratio sigma histories
                      (numericNames space) space).find? (fun r => r.1 == h.name) with
                  | some r => BHp.num (createHpFromRange h r.2.1 r.2.2)
                  | none => hp
              | BHp.cat _ _ => hp) space[i]? := by
            rw [hout]
            unfold createSpaceFromRanges
            exact List.getElem?_map _ space i
          rw [hi] at houti
          cases hfr : (computeSimpleRanges top_ratio sigma histories
              (numericNames space) space).find? (fun r => r.1 == h.name) with
          | none =>
            refine ⟨h, ?_, rfl, le_refl _, hlh, le_refl _, le_refl _⟩
            rw [houti]
            simp only [Option.map_some']
            rw [hfr]
          | some r =>
            have hfindnum := findNum_of_getElem space h hnodup hmem
            have hreq := ranges_find_spec top_ratio sigma histories space h hfindnum r hfr
            have hinX : ∀ c ∈ allTopConfigs top_ratio histories,
                h.lower ≤ valueOf c h ∧ valueOf c h ≤ h.upper := by
              intro c hc
              obtain ⟨hl, hhl, y, hmemp⟩ := mem_allTopConfigs hc
              exact hin h hmem hl hhl (c, y) hmemp
            have hXne : allTopConfigs top_ratio histories ≠ [] := by
              simpa [List.isEmpty_iff] using hx
            have hcpr := computeParamRange_spec sigma h
              (allTopConfigs top_ratio histories) hσ hXne hlh hinX
            have hchr := createHpFromRange_spec h
              (computeParamRange sigma h (allTopConfigs top_ratio histories)).1
              (computeParamRange sigma h (allTopConfigs top_ratio histories)).2
              hq hlh hcpr.1 hcpr.2.1 hcpr.2.2 hint
            refine ⟨createHpFromRange h
              (computeParamRange sigma h (allTopConfigs top_ratio histories)).1
              (computeParamRange sigma h (allTopConfigs top_ratio histories)).2,
              ?_, hchr.1, hchr.2.1, hchr.2.2.1, hchr.2.2.2, by
                linarith [hchr.2.1, hchr.2.2.2]⟩
            rw [houti]
            simp only [Option.map_some']
            rw [hfr, hreq]

/-- The concrete input of the C5 counterexample: an integer parameter with
bounds [3, 10], quantization step `q = 2`, and one observation at value 3. -/
def cexHp : NumHp := ⟨"p", 3, 10, true, some 2, 3⟩

def cexHist : List (List (BConfig × ℚ)) := [[([("p", 3)], 0)]]

theorem cex_normValue : normValue cexHp [("p", (3 : ℚ))] = 0 := by
  unfold normValue
  rw [if_pos (show (0 : ℚ) < cexHp.upper - cexHp.lower from by
    show (0 : ℚ) < 10 - 3
    norm_num)]
  rw [show valueOf [("p", (3 : ℚ))] cexHp = 3 from rfl]
  show ((3 : ℚ) - 3) / (10 - 3) = 0
  norm_num

theorem cex_paramRange : computeParamRange 0 cexHp [[("p", (3 : ℚ))]] = (3, 3) := by
  unfold computeParamRange
  dsimp only
  rw [show List.map (normValue cexHp) [[("p", (3 : ℚ))]] = [(0 : ℚ)] by
    rw [List.map_singleton, cex_normValue]]
  rw [show ([(0 : ℚ)].sum / ([(0 : ℚ)].length : ℚ)) = 0 by
    simp]
  rw [show List.map (fun x => (x - 0) ^ 2) [(0 : ℚ)] = [(0 : ℚ)] by norm_num]
  rw [show ([(0 : ℚ)].sum / ([(0 : ℚ)].length : ℚ)) = 0 by simp]
  rw [show ratSqrt 0 = 0 by unfold ratSqrt; rw [if_pos (le_refl 0)]]
  rw [show listMin [(0 : ℚ)] = 0 from rfl, show listMax [(0 : ℚ)] = 0 from rfl]
  rw [show max (0 : ℚ) (0 - 0 * 0) = 0 by norm_num]
  rw [show min (0 : ℚ) (0 + 0 * 0) = 0 by norm_num]
  rw [show cexHp.lower + (0 : ℚ) * (cexHp.upper - cexHp.lower) = 3 by
    show (3 : ℚ) + 0 * (10 - 3) = 3
    norm_num]
  rw [show List.map (fun x => cexHp.lower + x * (cexHp.upper - cexHp.lower)) [(0 : ℚ)] =
    [(3 : ℚ)] by
    rw [List.map_singleton]
    show [(3 : ℚ) + 0 * (10 - 3)] = [3]
    norm_num]
  unfold clampRangeBounds
  rw [if_neg (show ¬((3 : ℚ) < 3) by norm_num)]
  show (max (3 : ℚ) cexHp.lower, min (3 : ℚ) cexHp.upper) = (3, 3)
  rw [show max (3 : ℚ) cexHp.lower = 3 by
    show max (3 : ℚ) 3 = 3
    exact max_self 3]
  rw [show min (3 : ℚ) cexHp.upper = 3 by
    show min (3 : ℚ) 10 = 3
    exact min_eq_left (by norm_num)]

theorem cex_createHp : createHpFromRange cexHp 3 3 = ⟨"p", 2, 4, true, some 2, 3⟩ := by
  unfold createHpFromRange
  dsimp only [cexHp]
  rw [if_pos (le_refl (3 : ℚ))]
  rw [if_pos (show (3 : ℚ) < 10 by norm_num)]
  simp only [eq_self_iff_true, if_true]
  rw [show (3 : ℚ) + 1 = 4 by norm_num]
  rw [show (4 : ℚ) ⊓ 10 = 4 from min_eq_left (by norm_num)]
  rw [show ⌊(3 : ℚ) / 2⌋ = 1 by rw [Int.floor_eq_iff]; norm_num]
  rw [show ⌈(4 : ℚ) / 2⌉ = 2 by rw [Int.ceil_eq_iff]; norm_num]
  rw [show ((1 : ℤ) : ℚ) * 2 = 2 by norm_num]
  rw [show ((2 : ℤ) : ℚ) * 2 = 4 by norm_num]
  rw [if_neg (show ¬((4 : ℚ) - 2 < 2) by norm_num)]
  rw [show ((4 : ℚ) - 2) / 2 = 1 by norm_num]
  rw [show pyRound (1 : ℚ) = 1 by
    unfold pyRound
    rw [show ⌊(1 : ℚ)⌋ = 1 from Int.floor_one]
    rw [if_pos (by norm_num)]]
  rw [show (2 : ℚ) + ((1 : ℤ) : ℚ) * 2 = 4 by norm_num]
  rw [show pyInt (2 : ℚ) = 2 by
    unfold pyInt
    rw [if_pos (by norm_num), show ⌊(2 : ℚ)⌋ = 2 by rw [Int.floor_eq_iff]; norm_num]]
  rw [show pyInt (4 : ℚ) = 4 by
    unfold pyInt
    rw [if_pos (by norm_num), show ⌊(4 : ℚ)⌋ = 4 by rw [Int.floor_eq_iff]; norm_num]]
  rw [show ((2 : ℚ) + 4) / 2 = 3 by norm_num]
  rw [show pyInt (3 : ℚ) = 3 by
    unfold pyInt
    rw [if_pos (by norm_num), show ⌊(3 : ℚ)⌋ = 3 by rw [Int.floor_eq_iff]; norm_num]]
  rfl

/-- **C5 counterexample.** With the integer parameter `p ∈ [3, 10]`,
quantization step `q = 2`, and a single observation at `p = 3`,
`BoundaryRangeStep` produces the range `[2, 4]`: the lower bound 2 lies
*below* the original lower bound 3, so the compressed range is not
contained in the original range — the claim fails for parameters with a
quantization step. -/
theorem boundary_widens_with_q_counterexample :
    boundaryCompress "boundary" 1 0 [BHp.num cexHp] cexHist =
      [BHp.num ⟨"p", 2, 4, true, some 2, 3⟩] ∧
    (⟨"p", 2, 4, true, some 2, 3⟩ : NumHp).lower < cexHp.lower := by
  constructor
  · have e0 : allTopConfigs 1 cexHist = [[("p", (3 : ℚ))]] := by
      have h1 : topConfigs 1 [([("p", (3 : ℚ))], 0)] = [[("p", 3)]] := by
        unfold topConfigs
        rw [if_neg (by decide), if_neg (by norm_num)]
        rfl
      unfold allTopConfigs cexHist
      rw [List.map_singleton, h1]
      rfl
    have e4 : computeSimpleRanges 1 0 cexHist ["p"] [BHp.num cexHp] =
        [("p", ((3 : ℚ), (3 : ℚ)))] := by
      unfold computeSimpleRanges
      dsimp only
      rw [e0]
      rw [if_neg (by decide)]
      rw [show (["p"].filterMap fun n => (findNum [BHp.num cexHp] n).map
          (fun h => (n, computeParamRange 0 h [[("p", (3 : ℚ))]]))) =
        [("p", computeParamRange 0 cexHp [[("p", (3 : ℚ))]])] from rfl]
      rw [cex_paramRange]
    have e5 : boundaryCompress "boundary" 1 0 [BHp.num cexHp] cexHist =
        createSpaceFromRanges [BHp.num cexHp] [("p", ((3 : ℚ), (3 : ℚ)))] := by
      unfold boundaryCompress
      rw [if_neg (by decide), if_neg (by decide), if_neg (by decide)]
      rw [show numericNames [BHp.num cexHp] = ["p"] from rfl]
      rw [e4]
    rw [e5]
    rw [show createSpaceFromRanges [BHp.num cexHp] [("p", ((3 : ℚ), (3 : ℚ)))] =
      [BHp.num (createHpFromRange cexHp 3 3)] from rfl]
    rw [cex_createHp]
  · show (2 : ℚ) < 3
    norm_num

/-- Witness for the C5 theorem: a float parameter `p ∈ [0, 10]` with no
quantization step, one observation at `p = 2`, `top_ratio = sigma = 1`. -/
theorem boundary_range_no_widen_witness :
    ∃ h' : NumHp,
      (boundaryCompress "boundary" 1 1 [BHp.num ⟨"p", 0, 10, false, none, 5⟩]
        [[([("p", (2 : ℚ))], 0)]])[0]? = some (BHp.num h') ∧
      h'.name = "p" ∧ (0 : ℚ) ≤ h'.lower ∧ h'.lower ≤ h'.upper ∧
      h'.upper ≤ 10 ∧ h'.upper - h'.lower ≤ 10 - 0 := by
  have hmain := (boundary_range_no_widen 1 1 (by norm_num)
    [BHp.num ⟨"p", 0, 10, false, none, 5⟩] [[([("p", (2 : ℚ))], 0)]]
    (by simp [BHp.name])
    (by
      intro h hmem hl hhl p hp
      simp only [List.mem_singleton, BHp.num.injEq] at hmem hhl
      subst hmem
      subst hhl
      simp only [List.mem_singleton] at hp
      subst hp
      show (0 : ℚ) ≤ 2 ∧ (2 : ℚ) ≤ 10
      norm_num)).2 0 ⟨"p", 0, 10, false, none, 5⟩ rfl rfl (by norm_num)
    (fun hi => absurd hi (by decide))
  exact hmain

theorem insertByScore_perm (x : ℕ × ℚ) (l : List (ℕ × ℚ)) :
    (insertByScore x l).Perm (x :: l) := by
  induction l with
  | nil => exact List.Perm.refl _
  | cons y ys ih =>
    unfold insertByScore
    by_cases h : x.2 ≤ y.2
    · rw [if_pos h]
    · rw [if_neg h]
      exact (ih.cons y).trans (List.Perm.swap x y ys)

theorem sortScore_perm (l : List (ℕ × ℚ)) : (l.foldr insertByScore []).Perm l := by
  induction l with
  | nil => exact List.Perm.refl _
  | cons x xs ih => exact (insertByScore_perm x _).trans (ih.cons x)

theorem argsortIdx_perm (l : List ℚ) : (argsortIdx l).Perm (List.range l.length) := by
  unfold argsortIdx
  have h2 := (sortScore_perm l.enum).map Prod.fst
  rwa [List.enum_map_fst] at h2

theorem argsortIdx_length (l : List ℚ) : (argsortIdx l).length = l.length :=
  (argsortIdx_perm l).length_eq.trans (List.length_range _)

theorem range_map_getD {α : Type} (names : List α) (d : α) :
    (List.range names.length).map (fun i => names.getD i d) = names := by
  induction names with
  | nil => rfl
  | cons a t ih =>
    rw [List.length_cons, List.range_succ_eq_map, List.map_cons, List.map_map]
    have hf : ((fun i => (a :: t).getD i d) ∘ (fun i => i + 1)) = (fun i => t.getD i d) := by
      funext i
      simp [List.getD_cons_succ]
    rw [hf, ih]
    rfl

theorem numericNames_subset (space : List BHp) (n : String)
    (h : n ∈ numericNames space) : n ∈ space.map (·.name) := by
  unfold numericNames at h
  obtain ⟨hp, hmem, heq⟩ := List.mem_filterMap.mp h
  apply List.mem_map.mpr
  refine ⟨hp, hmem, ?_⟩
  cases hp with
  | num h' => simp only [Option.some.injEq] at heq; rw [← heq]; rfl
  | cat nm ch => exact absurd heq (by simp)

theorem filterMap_getElem_names (space : List BHp) (sel : List String)
    (hmem : ∀ n ∈ sel, n ∈ space.map (·.name)) :
    (((sel.map (indexOfName space)).filterMap (fun i => space[i]?)).map (·.name)) = sel := by
  induction sel with
  | nil => rfl
  | cons n rest ih =>
    have hn : n ∈ space.map (·.name) := hmem n (List.mem_cons_self n rest)
    have hlt : (space.map (·.name)).indexOf n < (space.map (·.name)).length :=
      List.indexOf_lt_length.mpr hn
    have hlt2 : indexOfName space n < space.length := by
      unfold indexOfName
      simpa using hlt
    have hname : space[indexOfName space n].name = n := by
      have hidx := List.getElem_indexOf hlt
      have heq : (space.map (·.name))[(space.map (·.name)).indexOf n] =
          space[indexOfName space n].name := by
        rw [List.getElem_map]
        rfl
      rw [heq] at hidx
      exact hidx
    rw [List.map_cons, List.filterMap_cons]
    rw [List.getElem?_eq_getElem hlt2]
    rw [List.map_cons, hname, ih (fun m hm => hmem m (List.mem_cons_of_mem n hm))]

/-- Helper: when `_select_parameters` returned every index, `compress`
returns the input space. -/
theorem shapCompress_of_selected_range (topk : ℤ) (space : List BHp)
    (histories : List (List (BConfig × ℚ))) (imps : Option (List ℚ))
    (h : shapSelectParameters topk space histories imps = List.range space.length) :
    shapCompress "shap" topk space histories imps = space := by
  unfold shapCompress
  rw [if_neg (by decide), h]
  cases space with
  | nil => rfl
  | cons a t =>
    rw [if_neg (by simp)]
    exact range_filterMap_getElem (a :: t)

/-- **C9 counterexample.**  A space with one numeric and one categorical
parameter, `topk = 5 ≥ 1` available (numeric) parameter: `compress` keeps
only the numeric parameter and drops the categorical one, so it does not
"keep all parameters". -/
theorem shap_drops_categorical_counterexample :
    shapCompress "shap" 5 [BHp.num ⟨"a", 0, 1, false, none, 0⟩, BHp.cat "c" ["x", "y"]]
        [[([("a", 0)], 0)]] (some [-1]) =
      [BHp.num ⟨"a", 0, 1, false, none, 0⟩] ∧
    ¬(shapCompress "shap" 5 [BHp.num ⟨"a", 0, 1, false, none, 0⟩, BHp.cat "c" ["x", "y"]]
        [[([("a", 0)], 0)]] (some [-1]) =
      [BHp.num ⟨"a", 0, 1, false, none, 0⟩, BHp.cat "c" ["x", "y"]]) := by
  constructor
  · rfl
  · intro hc
    have : ([BHp.num ⟨"a", 0, 1, false, none, 0⟩] : List BHp).length =
        ([BHp.num ⟨"a", 0, 1, false, none, 0⟩, BHp.cat "c" ["x", "y"]] : List BHp).length := by
      rw [← hc]
      rfl
    simp at this

/-- **C9 (amended).** With zero numeric parameters available for ranking,
`compress` keeps all parameters unchanged; when the oracle returns
importances for the available (numeric) parameters and `topk` is at least
their count, `compress` keeps exactly the available numeric parameters (as
a permutation) — parameters not available for ranking (categoricals) are
dropped whenever ranking takes place. -/
theorem shap_select_edge_cases (topk : ℤ) (space : List BHp)
    (histories : List (List (BConfig × ℚ))) (imps : Option (List ℚ)) :
    (numericNames space = [] → shapCompress "shap" topk space histories imps = space) ∧
    (∀ l, imps = some l → l ≠ [] → l.length = (numericNames space).length →
      (numericNames space).length ≤ topk.toNat → 0 < topk → histories ≠ [] →
      ((shapCompress "shap" topk space histories imps).map (·.name)).Perm
        (numericNames space)) := by
  constructor
  · intro hnn
    apply shapCompress_of_selected_range
    unfold shapSelectParameters
    by_cases h1 : topk ≤ 0
    · rw [if_pos h1]
    · rw [if_neg h1]
      by_cases h2 : histories.isEmpty
      · rw [if_pos h2]
      · rw [if_neg h2]
        cases imps with
        | none => rfl
        | some l =>
          dsimp only
          by_cases h3 : l.isEmpty = true
          · rw [if_pos h3]
          · rw [if_neg h3, hnn]
            simp
  · intro l hl hlne hlen hle htopk hhist
    have hnames : numericNames space ≠ [] := by
      intro h0
      rw [h0] at hlen
      exact hlne (List.eq_nil_of_length_eq_zero hlen)
    have hsel : shapSelectParameters topk space histories imps =
        ((argsortIdx l).map (fun i => (numericNames space).getD i "")).map
          (indexOfName space) := by
      unfold shapSelectParameters
      rw [if_neg (by omega), if_neg (by simpa [List.isEmpty_iff] using hhist), hl]
      dsimp only
      rw [if_neg (by simpa [List.isEmpty_iff] using hlne)]
      rw [if_neg (by
        intro h0
        rcases Nat.min_eq_zero_iff.mp h0 with h | h
        · omega
        · exact hnames (List.eq_nil_of_length_eq_zero h))]
      rw [min_eq_right hle]
      rw [show (argsortIdx l).take (numericNames space).length = argsortIdx l by
        rw [← hlen, ← argsortIdx_length l]
        exact List.take_length _]
    have hperm : ((argsortIdx l).map (fun i => (numericNames space).getD i "")).Perm
        (numericNames space) := by
      have hp := (argsortIdx_perm l).map (fun i => (numericNames space).getD i "")
      rw [hlen] at hp
      rwa [range_map_getD] at hp
    have hout : shapCompress "shap" topk space histories imps =
        (((argsortIdx l).map (fun i => (numericNames space).getD i "")).map
          (indexOfName space)).filterMap (fun i => space[i]?) := by
      unfold shapCompress
      rw [if_neg (by decide), hsel]
      rw [if_neg (by
        simp only [List.isEmpty_iff]
        intro h0
        have hl2 := congrArg List.length h0
        simp only [List.length_map, List.length_nil] at hl2
        rw [argsortIdx_length, hlen] at hl2
        exact hnames (List.eq_nil_of_length_eq_zero hl2))]
    rw [hout]
    rw [filterMap_getElem_names space _ (fun n hn => numericNames_subset space n
      (hperm.mem_iff.mp hn))]
    exact hperm

/-- Witness for the amended C9: two numeric parameters and one categorical,
`topk = 5 ≥ 2`; the output names are a permutation of the numeric names,
and a space with only a categorical parameter is returned unchanged. -/
theorem shap_select_edge_cases_witness :
    (((shapCompress "shap" 5
        [BHp.num ⟨"a", 0, 1, false, none, 0⟩, BHp.num ⟨"b", 0, 1, false, none, 0⟩,
          BHp.cat "c" ["x"]]
        [[([("a", 0)], 0)]] (some [-1, -2])).map (·.name)).Perm ["a", "b"]) ∧
    shapCompress "shap" 5 [BHp.cat "c" ["x"]] [[([("a", 0)], 0)]] none =
      [BHp.cat "c" ["x"]] := by
  constructor
  · have h := (shap_select_edge_cases 5
      [BHp.num ⟨"a", 0, 1, false, none, 0⟩, BHp.num ⟨"b", 0, 1, false, none, 0⟩,
        BHp.cat "c" ["x"]]
      [[([("a", 0)], 0)]] (some [-1, -2])).2 [-1, -2] rfl (by simp) (by rfl)
      (by decide) (by decide) (by simp)
    exact h
  · exact (shap_select_edge_cases 5 [BHp.cat "c" ["x"]]
      [[([("a", 0)], 0)]] none).1 rfl

/-- Witness for C3 on a concrete 1-dimensional embedding with one numeric
active hyperparameter. -/
theorem rembo_cache_roundtrip_witness :
    let cfg : RemboCfg :=
      ⟨1, 1, none, [[2]], [RHp.numeric "x" 0 4], fun _ => [0]⟩
    let r1 := remboUnproject cfg RemboState.empty [1/2]
    let r2 := remboUnproject cfg r1.2 [1/2]
    r2.1 = r1.1 ∧
    (remboProject cfg r2.2 r1.1).1 = [("rembo_0", 1/2)] :=
  rembo_cache_roundtrip
    ⟨1, 1, none, [[2]], [RHp.numeric "x" 0 4], fun _ => [0]⟩ [1/2]

end Dimensio
